import Mathlib

/-!
# wallet-pkg-list_params: list parameters engine

A shallow embedding of the Go package `list_params` (files `operators.go`,
`list_params.go`, `includes_params.go`, `error.go`) and theorems about it.

Modelling conventions.

* A Go `string` is a Lean `String`.  The separators the package splits on
  (`","`, `":"`, `"."`) are single ASCII bytes, so splitting the bytes of a
  UTF-8 string on them is splitting its characters on the same character.
* A Go slice is a `List`; a `nil` slice and an empty slice are both `[]`.
* A Go `interface{}` holding a bind argument is a `Value`; the untyped `nil`
  interface is `Value.nil`.
* A Go `error` is identified by the text its `Error()` method returns.
* A method with a pointer receiver that assigns to the receiver returns the
  new receiver next to its result.
* A run-time panic is the result `none`.
* A Go function value stored in a registry is a `FuncRef`; what the referenced
  function returns is looked up in a `Callbacks` table.  The functions of the
  external libraries `strcase` and `inflection` are the fields of a `Lib`.
* `reflect.Type` of the target record is an `ObjectType`: the struct's name,
  its fields with their tags, and what its `TableName` method returns when it
  has one.  A `ListParams` carries such a record type.
* A pointer is the value it points to; a pointer that can be `nil` is an
  `Option`, `none` for `nil`.  The field `Includes` of a `ListParams` is such
  a pointer: `NewIncludes` returns `nil` for a query that does not parse.
* `uint32` fields are natural numbers; `uint32` arithmetic is taken modulo
  `2^32`.
* A Go map is the list of its entries, visited in the order of the list.
* The functions of `net/url` are the fields of a `NetUrl`; `strconv.ParseUint`
  and the one regular expression of the package are modelled directly.
-/

namespace list_params

/-! ## Go standard library: `strings.Split`, `strings.Join` -/

/-- Split a list of characters at every occurrence of `sep`. -/
def splitChars (sep : Char) : List Char → List (List Char)
  | [] => [[]]
  | c :: cs =>
    if c = sep then [] :: splitChars sep cs
    else
      match splitChars sep cs with
      | [] => [[c]]
      | h :: t => (c :: h) :: t

/-- Go `strings.Split(s, sep)` for a one-character separator: the pieces of `s`
between the occurrences of `sep`; a string without `sep` (the empty string
too) gives the one-element list `[s]`. -/
def strings.Split (s : String) (sep : Char) : List String :=
  (splitChars sep s.data).map String.mk

/-- Go `strings.Join(elems, sep)`. -/
def strings.Join : List String → String → String
  | [], _ => ""
  | [a], _ => a
  | a :: b :: rest, sep => a ++ sep ++ strings.Join (b :: rest) sep

/-- Number of occurrences of the character `c` in `s`. -/
def countChar (c : Char) (s : String) : Nat :=
  s.data.count c

/-- The string `t` occurs in `s` (Go `strings.Contains(s, t)`). -/
def Contains (s t : String) : Prop :=
  ∃ a b : String, s = a ++ t ++ b

/-! ## Values and errors -/

/-- A Go `interface{}` used as a bind argument. -/
inductive Value where
  | nil
  | str (s : String)
  | int (i : Int)
  | slice (xs : List Value)

mutual
/-- Decidable equality of values. -/
def Value.decEq : (a b : Value) → Decidable (a = b)
  | .nil, .nil => isTrue rfl
  | .str s, .str t =>
    if h : s = t then isTrue (by rw [h]) else isFalse (fun e => h (by cases e; rfl))
  | .int s, .int t =>
    if h : s = t then isTrue (by rw [h]) else isFalse (fun e => h (by cases e; rfl))
  | .slice xs, .slice ys =>
    match Value.decEqList xs ys with
    | isTrue h => isTrue (by rw [h])
    | isFalse h => isFalse (fun e => h (by cases e; rfl))
  | .nil, .str _ => isFalse (fun e => by cases e)
  | .nil, .int _ => isFalse (fun e => by cases e)
  | .nil, .slice _ => isFalse (fun e => by cases e)
  | .str _, .nil => isFalse (fun e => by cases e)
  | .str _, .int _ => isFalse (fun e => by cases e)
  | .str _, .slice _ => isFalse (fun e => by cases e)
  | .int _, .nil => isFalse (fun e => by cases e)
  | .int _, .str _ => isFalse (fun e => by cases e)
  | .int _, .slice _ => isFalse (fun e => by cases e)
  | .slice _, .nil => isFalse (fun e => by cases e)
  | .slice _, .str _ => isFalse (fun e => by cases e)
  | .slice _, .int _ => isFalse (fun e => by cases e)
/-- Decidable equality of lists of values. -/
def Value.decEqList : (as bs : List Value) → Decidable (as = bs)
  | [], [] => isTrue rfl
  | [], _ :: _ => isFalse (fun e => by cases e)
  | _ :: _, [] => isFalse (fun e => by cases e)
  | a :: as, b :: bs =>
    match Value.decEq a b with
    | isTrue h =>
      match Value.decEqList as bs with
      | isTrue h2 => isTrue (by rw [h, h2])
      | isFalse h2 => isFalse (fun e => h2 (by cases e; rfl))
    | isFalse h => isFalse (fun e => h (by cases e; rfl))
end

instance : DecidableEq Value := Value.decEq

/-- A Go `error`, identified by its message. -/
structure GoError where
  msg : String
  deriving DecidableEq, Repr

/-- Method `Error()` of an error. -/
def GoError.Error (e : GoError) : String := e.msg

/-- Go `NewErrorString(text)` of `error.go`. -/
def NewErrorString (text : String) : GoError := ⟨text⟩

/-- Go `errors.New(text)`. -/
def errorsNew (text : String) : GoError := ⟨text⟩

/-! ## operators.go -/

/-- Go `type Operator string`. -/
abbrev Operator := String

def OperatorEq : Operator := "eq"
def OperatorNeq : Operator := "neq"
def OperatorLt : Operator := "lt"
def OperatorGt : Operator := "gt"
def OperatorLte : Operator := "lte"
def OperatorGte : Operator := "gte"
def OperatorIn : Operator := "in"
def OperatorNin : Operator := "nin"
def OperatorLike : Operator := "like"

def operatorDelimiter : Char := ':'

/-- Go `type operation func(field string, values []string) (string, []interface{})`. -/
abbrev operation := String → List String → String × List Value

/-- Go `expressionTemplate` of `operators.go`. -/
def expressionTemplate (field connector operator : String) (values : List String) :
    String × List Value :=
  match values with
  | [] => ("", [])
  | [v] => (field ++ " " ++ operator ++ " ?", [Value.str v])
  | _ =>
    (strings.Join (List.replicate values.length (field ++ " " ++ operator ++ " ?"))
        (" " ++ connector ++ " "),
      values.map Value.str)

/-- The map `operations` of `operators.go`: `operations op` is the entry of
key `op`, `none` when the map has no such key. -/
def operations (op : Operator) : Option operation :=
  if op = OperatorEq then some (fun field values => expressionTemplate field "OR" "=" values)
  else if op = OperatorNeq then
    some (fun field values => expressionTemplate field "OR" "!=" values)
  else if op = OperatorLt then
    some (fun field values => expressionTemplate field "AND" "<" values)
  else if op = OperatorGt then
    some (fun field values => expressionTemplate field "AND" ">" values)
  else if op = OperatorLte then
    some (fun field values => expressionTemplate field "AND" "<=" values)
  else if op = OperatorGte then
    some (fun field values => expressionTemplate field "AND" ">=" values)
  else if op = OperatorIn then
    some (fun field values => (field ++ " IN (?)", values.map Value.str))
  else if op = OperatorNin then
    some (fun field values => (field ++ " NOT IN (?)", values.map Value.str))
  else if op = OperatorLike then
    some (fun field values =>
      match values with
      | [] => ("", [])
      | v :: _ => (field ++ " LIKE ?", [Value.str ("%" ++ v ++ "%")]))
  else none

/-- The map `knownOperators` of `operators.go`. -/
def knownOperators (token : String) : Option Operator :=
  if token = "eq" then some OperatorEq
  else if token = "neq" then some OperatorNeq
  else if token = "lt" then some OperatorLt
  else if token = "gt" then some OperatorGt
  else if token = "lte" then some OperatorLte
  else if token = "gte" then some OperatorGte
  else if token = "in" then some OperatorIn
  else if token = "nin" then some OperatorNin
  else if token = "like" then some OperatorLike
  else none

/-! ## includes_params.go -/

/-- A reference to a Go function value kept in a registry. -/
abbrev FuncRef := Nat

/-- An element of a `[]interface{}` fields list: a field name, or a
`map[string][]interface{}` from group names to nested lists (its entries in
the order the map is iterated). -/
inductive FieldItem where
  | str (name : String)
  | map (entries : List (String × List FieldItem))

/-- Go `type customIncludes struct`. -/
structure customIncludes where
  Field : String
  Func : FuncRef
  deriving DecidableEq, Repr

/-- Go `type Includes struct`. -/
structure Includes where
  passedIncludes : List String
  customIncludes : List list_params.customIncludes
  errors : List GoError
  allowedIncludes : List String
  fieldsSet : List FieldItem
  selectedFields : List FieldItem

/-- Go `Includes.isAllowedIncludes`. -/
def Includes.isAllowedIncludes (self : Includes) (field : String) : Bool :=
  self.allowedIncludes.any (fun v => v == field)

/-- Go `Includes.addAllowingError`. -/
def Includes.addAllowingError (self : Includes) (field : String) : Includes :=
  { self with
    errors := self.errors ++ [errorsNew ("Including of " ++ field ++ " in not allowed")] }

/-- Go `Includes.Validate`: the result and the receiver after the call. -/
def Includes.Validate (self : Includes) : (Bool × List GoError) × Includes :=
  let self1 := self.passedIncludes.foldl
    (fun s v => if !s.isAllowedIncludes v then s.addAllowingError v else s) self
  ((self1.errors.length == 0, self1.errors), self1)

/-! ## list_params.go -/

def AscDirection : String := "ASC"
def DescDirection : String := "DESC"
def queryParamDelimiter : Char := ','
def DefaultPageNumber : Nat := 1
def DefaultPageSize : Nat := 20
def sqlTableFieldDelimiter : Char := '.'

/-- Go `type Join string`. -/
abbrev Join := String

def JoinLeft : Join := "LEFT"
def JoinRight : Join := "RIGHT"
def JoinInner : Join := "INNER"

/-- Go `type FieldOperatorPair struct`. -/
structure FieldOperatorPair where
  Field : String
  Operator : Operator
  deriving DecidableEq, Repr

/-- Go `type FilterListParameter struct`. -/
structure FilterListParameter extends FieldOperatorPair where
  Values : List String
  deriving DecidableEq, Repr

/-- Go `type PaginationListParameter struct`; both fields are `uint32`. -/
structure PaginationListParameter where
  PageNumber : Nat
  PageSize : Nat
  deriving DecidableEq, Repr

/-- Go `type SortingListParameter struct`. -/
structure SortingListParameter where
  Field : String
  Direction : String
  deriving DecidableEq, Repr

/-- Go `type join struct`. -/
structure join where
  tableName : String
  onStatement : String
  joinType : Join
  deriving DecidableEq, Repr

/-- Go `type customFilter struct`. -/
structure customFilter where
  Field : String
  Func : FuncRef
  deriving DecidableEq, Repr

/-- Go `type customSoting struct`. -/
structure customSoting where
  Field : String
  Func : FuncRef
  deriving DecidableEq, Repr

/-- Go `type allowedListParams struct`. -/
structure allowedListParams where
  Sortings : List String
  Filters : List FieldOperatorPair
  Pagination : Bool
  deriving DecidableEq, Repr

/-- A `reflect.StructField`: the field's name and its tag as key/value pairs. -/
structure StructField where
  Name : String
  Tag : List (String × String)
  deriving DecidableEq, Repr

/-- Go `StructTag.Lookup(key)`. -/
def StructField.TagLookup (field : StructField) (key : String) : Option String :=
  field.Tag.lookup key

/-- Go `StructTag.Get(key)`: the value of the key, `""` when the tag has no such key. -/
def StructField.TagGet (field : StructField) (key : String) : String :=
  (field.TagLookup key).getD ""

/-- The `reflect.Type` of the target record (a struct type): the type's name,
its fields in declaration order, and the string its `TableName` method
returns if it has that method. -/
structure ObjectType where
  Name : String
  Fields : List StructField
  TableName : Option String
  deriving DecidableEq, Repr

/-- Go `type ListParams struct`. -/
structure ListParams where
  Sortings : List SortingListParameter
  Filters : List FilterListParameter
  Includes : Option list_params.Includes
  Pagination : PaginationListParameter
  ObjectType : list_params.ObjectType
  allowedListParams : list_params.allowedListParams
  customFilters : List customFilter
  customIncludes : List list_params.customIncludes
  customSortings : List customSoting
  errors : List GoError
  joins : List join
  groupBy : Option String

/-- The functions of the libraries `strcase` and `inflection` the package calls. -/
structure Lib where
  ToSnake : String → String
  ToCamel : String → String
  ToLowerCamel : String → String
  Plural : String → String

/-- What the registered functions return: `filterFunc r` is the
`customFilterFunc` behind reference `r`, `sortingFunc r` the
`customSortingFunc` (its results `orderByPart` and `err`, `none` for a `nil`
error).  A call is modelled by the values it returns for its arguments. -/
structure Callbacks where
  filterFunc : FuncRef → List String → ListParams → String × Value
  sortingFunc : FuncRef → String → ListParams → String × Option GoError

/-- Go `url.Values`, a `map[string][]string`. -/
abbrev Values := List (String × List String)

/-- Indexing `values[key]`: the `nil` slice when the key is absent. -/
def Values.get (values : Values) (key : String) : List String :=
  (values.lookup key).getD []

/-- Go `ListParams.addError`. -/
def ListParams.addError (params : ListParams) (text : String) : ListParams :=
  { params with errors := params.errors ++ [NewErrorString text] }

/-- Go `ListParams.addErrors`. -/
def ListParams.addErrors (params : ListParams) (errors : List GoError) : ListParams :=
  errors.foldl
    (fun p err => { p with errors := p.errors ++ [NewErrorString err.Error] }) params

/-- Go `ListParams.addPaginationError`. -/
def ListParams.addPaginationError (params : ListParams) : ListParams :=
  params.addError "Pagination is not allowed"

/-- Go `ListParams.addFilterError`. -/
def ListParams.addFilterError (params : ListParams) (field : String) (operator : Operator) :
    ListParams :=
  params.addError ("Filter " ++ field ++ " is not allowed with operator " ++ operator)

/-- Go `ListParams.addSortingError`. -/
def ListParams.addSortingError (params : ListParams) (field : String) : ListParams :=
  params.addError ("Sorting by " ++ field ++ " in not allowed")

/-- Go `ListParams.isAllowedFilter`. -/
def ListParams.isAllowedFilter (params : ListParams) (field : String) (operator : Operator) :
    Bool :=
  params.allowedListParams.Filters.any (fun v => v.Field == field && v.Operator == operator)

/-- Go `ListParams.isAllowedSorting`. -/
def ListParams.isAllowedSorting (params : ListParams) (field : String) : Bool :=
  params.allowedListParams.Sortings.any (fun v => v == field)

/-- Go `ListParams.Validate`: the result and the receiver after the call.  The
call `params.Includes.Validate()` reads the fields of `Includes`; on a `nil`
pointer it panics. -/
def ListParams.Validate (params : ListParams) :
    Option ((Bool × List GoError) × ListParams) :=
  let p1 := params.Sortings.foldl
    (fun p v => if !p.isAllowedSorting v.Field then p.addSortingError v.Field else p) params
  let p2 := p1.Filters.foldl
    (fun p v =>
      if !p.isAllowedFilter v.Field v.Operator then p.addFilterError v.Field v.Operator else p)
    p1
  match p2.Includes with
  | none => none
  | some includes =>
    let r := includes.Validate
    let p3 := { p2 with Includes := some r.2 }
    let p4 := if !r.1.1 then p3.addErrors r.1.2 else p3
    let p5 :=
      if !p4.allowedListParams.Pagination then
        let pagination := p4.Pagination
        if pagination.PageNumber != DefaultPageNumber
            || (pagination.PageSize != DefaultPageSize && pagination.PageSize != 0) then
          p4.addPaginationError
        else p4
      else p4
    some ((p5.errors.length == 0, p5.errors), p5)

/-- The loop of `ListParams.transformName` over the fields of the record type. -/
def transformNameLoop (lib : Lib) (presentedName : String) : List StructField → String
  | [] => lib.ToSnake presentedName
  | field :: rest =>
    if field.TagGet "json" == presentedName then
      match field.TagLookup "db" with
      | some dbTag => dbTag
      | none => lib.ToSnake field.Name
    else transformNameLoop lib presentedName rest

/-- Go `ListParams.transformName`. -/
def ListParams.transformName (lib : Lib) (params : ListParams) (presentedName : String) :
    String :=
  transformNameLoop lib presentedName params.ObjectType.Fields

/-- Go `ListParams.addTablePrefix`. -/
def ListParams.addTablePrefix (lib : Lib) (params : ListParams) (field : String) : String :=
  let tableName :=
    match params.ObjectType.TableName with
    | some result => result
    | none => lib.ToSnake (lib.Plural params.ObjectType.Name)
  strings.Join [tableName, field] (String.singleton sqlTableFieldDelimiter)

/-- Go `ListParams.getCustomFilter`. -/
def ListParams.getCustomFilter (params : ListParams) (field : String) : Option customFilter :=
  params.customFilters.find? (fun filter => filter.Field == field)

/-- Go `ListParams.getCustomSorting`. -/
def ListParams.getCustomSorting (params : ListParams) (field : String) : Option customSoting :=
  params.customSortings.find? (fun v => v.Field == field)

/-- Go `ListParams.getConditionPartFromCustomFilter`. -/
def ListParams.getConditionPartFromCustomFilter (cb : Callbacks) (params : ListParams)
    (filter : customFilter) (inputValues : List String) : String × Value :=
  cb.filterFunc filter.Func inputValues params

/-- Go `ListParams.GetConditionPartFromUsualFilter`.  The `[]interface{}` an
operation returns and the `[]string` of the fallback are returned as one
`interface{}`, a `Value.slice`. -/
def ListParams.GetConditionPartFromUsualFilter (lib : Lib) (params : ListParams)
    (filter : FilterListParameter) : String × Value :=
  match operations filter.Operator with
  | some operation =>
    let transformName := params.transformName lib filter.Field
    let transformName :=
      if (strings.Split transformName sqlTableFieldDelimiter).length == 1 then
        params.addTablePrefix lib transformName
      else transformName
    let r := operation transformName filter.Values
    (r.1, Value.slice r.2)
  | none =>
    match filter.Values with
    | [v] => (params.transformName lib filter.Field ++ " = ?", Value.str v)
    | _ =>
      (params.transformName lib filter.Field ++ " IN (?)",
        Value.slice (filter.Values.map Value.str))

/-- The loop of `ListParams.GetWhereCondition`: `filterStrs` and `arguments`
after the remaining filters.  `reflect.TypeOf(customFilterArgs).Kind()`
panics when the custom function returned the `nil` interface. -/
def whereLoop (lib : Lib) (cb : Callbacks) (params : ListParams) :
    List FilterListParameter → List String → List Value → Option (List String × List Value)
  | [], filterStrs, arguments => some (filterStrs, arguments)
  | filter :: rest, filterStrs, arguments =>
    match params.getCustomFilter filter.Field with
    | some custom =>
      let r := params.getConditionPartFromCustomFilter cb custom filter.Values
      match r.2 with
      | Value.nil => none
      | Value.slice args => whereLoop lib cb params rest (filterStrs ++ [r.1]) (arguments ++ args)
      | customFilterArgs =>
        whereLoop lib cb params rest (filterStrs ++ [r.1]) (arguments ++ [customFilterArgs])
    | none =>
      let r := params.GetConditionPartFromUsualFilter lib filter
      whereLoop lib cb params rest (filterStrs ++ [r.1]) (arguments ++ [r.2])

/-- Go `ListParams.GetWhereCondition`. -/
def ListParams.GetWhereCondition (lib : Lib) (cb : Callbacks) (params : ListParams) :
    Option (String × List Value) :=
  (whereLoop lib cb params params.Filters [] []).map
    (fun r => (strings.Join r.1 " AND ", r.2))

/-- Go `ListParams.getOrderByString`: the string and the error (`none` for `nil`). -/
def ListParams.getOrderByString (lib : Lib) (cb : Callbacks) (params : ListParams)
    (sortingParam : SortingListParameter) : String × Option GoError :=
  match params.getCustomSorting sortingParam.Field with
  | some custom => cb.sortingFunc custom.Func sortingParam.Direction params
  | none =>
    let transformName := params.transformName lib sortingParam.Field
    let transformName :=
      if (strings.Split transformName sqlTableFieldDelimiter).length == 1 then
        params.addTablePrefix lib transformName
      else transformName
    (transformName ++ " " ++ sortingParam.Direction, none)

/-- Go `ListParams.GetOrderByString`. -/
def ListParams.GetOrderByString (lib : Lib) (cb : Callbacks) (params : ListParams) : String :=
  let orderByParts := params.Sortings.foldl
    (fun orderByParts sorting =>
      match params.getOrderByString lib cb sorting with
      | (_, some _) => orderByParts
      | (orderPart, none) => orderByParts ++ [orderPart])
    []
  strings.Join orderByParts ","

/-- The body of the inner loop of `ListParams.setSortingParams` for one token;
`field[0]` panics on the empty token. -/
def sortingParameterOf (field : String) : Option SortingListParameter :=
  match field.data with
  | [] => none
  | c :: cs =>
    if c = '-' then some { Direction := DescDirection, Field := String.mk cs }
    else some { Direction := AscDirection, Field := field }

/-- Go `ListParams.setSortingParams`. -/
def ListParams.setSortingParams (params : ListParams) (values : Values) : Option ListParams :=
  let sortingFields := Values.get values "sort"
  let list := sortingFields.foldlM
    (fun list sortingQueryParam =>
      (strings.Split sortingQueryParam queryParamDelimiter).foldlM
        (fun list field => (sortingParameterOf field).map (fun p => list ++ [p])) list)
    []
  list.map (fun l => { params with Sortings := l })

/-- Go `ListParams.parseField`; the receiver is not used.  The results are named:
when the operator token is not a known operator, `fieldName` is returned as it
was initialised, the empty string. -/
def parseField (field : String) : String × Operator :=
  match strings.Split field operatorDelimiter with
  | [] => (field, OperatorEq)
  | [fieldName] => (fieldName, OperatorEq)
  | fieldName :: token :: _ =>
    match knownOperators token with
    | some op => (fieldName, op)
    | none => ("", OperatorEq)

/-! ## Go standard library: `strconv.ParseUint`, `regexp`, `net/url` -/

/-- The largest `uint32`. -/
def maxUint32 : Nat := 4294967295

/-- The digit loop of `strconv.ParseUint(s, 10, 32)`: a character that is not
a decimal digit ends it with value 0 and a syntax error, a value above
`maxUint32` ends it with `maxUint32` and a range error. -/
def parseUintLoop : List Char → Nat → Nat × Option GoError
  | [], n => (n, none)
  | c :: cs, n =>
    if !c.isDigit then (0, some ⟨"invalid syntax"⟩)
    else
      let n1 := n * 10 + (c.toNat - '0'.toNat)
      if n1 > maxUint32 then (maxUint32, some ⟨"value out of range"⟩)
      else parseUintLoop cs n1

/-- Go `strconv.ParseUint(s, 10, 32)`: the value and the error (`none` for
`nil`); the empty string is a syntax error. -/
def strconv.ParseUint (s : String) : Nat × Option GoError :=
  match s.data with
  | [] => (0, some ⟨"invalid syntax"⟩)
  | cs => parseUintLoop cs 0

/-- The text before the last `]` of the line `rest` starts with (the longest
match of `.*` that `]` can follow; `.` does not match a newline), if the line
has a `]`. -/
def bracketGroup (rest : List Char) : Option (List Char) :=
  let line := rest.takeWhile (fun c => c != '\n')
  if line.contains ']' then
    some ((line.reverse.dropWhile (fun c => c != ']')).tail.reverse)
  else none

/-- The leftmost match of the pattern `filter\[(.*)\]` in a list of
characters: the matched text and the text of the group. -/
def findFilterSubmatch : List Char → Option (List Char × List Char)
  | [] => none
  | c :: cs =>
    if "filter[".data.isPrefixOf (c :: cs) then
      match bracketGroup ((c :: cs).drop 7) with
      | some group => some ("filter[".data ++ group ++ [']'], group)
      | none => findFilterSubmatch cs
    else findFilterSubmatch cs

/-- Go `pattern.FindStringSubmatch(k)` for the pattern `filter\[(.*)\]` of
`setFilters`: `none` when there is no match (the `nil` slice), else the
elements 0 and 1 of the result. -/
def FindStringSubmatch (k : String) : Option (String × String) :=
  (findFilterSubmatch k.data).map (fun r => (String.mk r.1, String.mk r.2))

/-- The functions of `net/url` the package calls, each with its error result
(`none` for `nil`). -/
structure NetUrl where
  PathUnescape : String → String × Option GoError
  ParseQuery : String → Values × Option GoError

/-! ## list_params.go: constructors, pagination, filters, joins -/

/-- Go `Includes.set`. -/
def Includes.set (self : Includes) (values : Values) : Includes :=
  let list := (Values.get values "include").foldl
    (fun list queryField =>
      (strings.Split queryField queryParamDelimiter).foldl
        (fun list fieldName => list ++ [fieldName]) list)
    []
  { self with passedIncludes := list }

/-- The zero value `Includes{}`. -/
def Includes.zero : Includes :=
  { passedIncludes := []
    customIncludes := []
    errors := []
    allowedIncludes := []
    fieldsSet := []
    selectedFields := [] }

/-- Go `NewIncludes(query)`: `none` is the `nil` pointer returned when the
query does not parse. -/
def NewIncludes (url : NetUrl) (query : String) : Option Includes :=
  match url.ParseQuery query with
  | (_, some _) => none
  | (values, none) => some (Includes.zero.set values)

/-- Go `newAllowedListParams`. -/
def newAllowedListParams : allowedListParams := ⟨[], [], false⟩

/-- Go `NewListParams()`.  The constructor leaves `ObjectType` `nil`; the model
takes the record type assigned to it afterwards as an argument.  `Includes`
is `NewIncludes("")`, where `url.ParseQuery("")` is the empty map; `Pagination`
keeps its zero value. -/
def NewListParams (objectType : ObjectType) : ListParams :=
  { Sortings := []
    Filters := []
    Includes := some (Includes.zero.set [])
    Pagination := ⟨0, 0⟩
    ObjectType := objectType
    allowedListParams := newAllowedListParams
    customFilters := []
    customIncludes := []
    customSortings := []
    errors := []
    joins := []
    groupBy := none }

/-- Go `ListParams.setPagination`. -/
def ListParams.setPagination (params : ListParams) (values : Values) : ListParams :=
  let number32 :=
    match Values.get values "page[number]" with
    | [] => DefaultPageNumber
    | number :: _ => (strconv.ParseUint number).1
  let size32 :=
    match Values.get values "page[size]" with
    | [] => DefaultPageSize
    | size :: _ => (strconv.ParseUint size).1
  { params with Pagination := ⟨number32, size32⟩ }

/-- Go `ListParams.GetLimit`. -/
def ListParams.GetLimit (params : ListParams) : Nat :=
  params.Pagination.PageSize

/-- Go `ListParams.GetOffset`, in `uint32` arithmetic: the subtraction and the
product wrap around modulo `2^32`. -/
def ListParams.GetOffset (params : ListParams) : Nat :=
  (params.Pagination.PageSize * ((params.Pagination.PageNumber + 2 ^ 32 - 1) % 2 ^ 32)) % 2 ^ 32

/-- Go `ListParams.setFilters`.  The keys of the map are visited in the order of
the list; `values[submatches[0]][0]` panics when the matched text is not a key
with a value. -/
def ListParams.setFilters (params : ListParams) (values : Values) : Option ListParams :=
  let list := values.foldlM
    (fun (list : List FilterListParameter) (entry : String × List String) =>
      match FindStringSubmatch entry.1 with
      | none => some list
      | some submatches =>
        match Values.get values submatches.1 with
        | [] => none
        | first :: _ =>
          let r := parseField submatches.2
          let parameter : FilterListParameter :=
            { Field := r.1, Operator := r.2,
              Values := strings.Split first queryParamDelimiter }
          some (list ++ [parameter]))
    []
  list.map (fun l => { params with Filters := l })

/-- Go `NewListParamsFromQuery(query, object)`, the object given by its record
type.  The error of `url.PathUnescape` is logged only; `Includes` is what
`NewIncludes` returns for the query as given, `nil` when that does not parse.
The result is `none` when the code panics. -/
def NewListParamsFromQuery (url : NetUrl) (query : String) (objectType : ObjectType) :
    Option ListParams :=
  let unescapedQuery := (url.PathUnescape query).1
  let r := url.ParseQuery unescapedQuery
  let listParams : ListParams := { NewListParams objectType with ObjectType := objectType }
  match r.2 with
  | some _ => some (listParams.addError "Query format is invalid")
  | none =>
    (listParams.setSortingParams r.1).bind fun p1 =>
    (p1.setFilters r.1).bind fun p2 =>
    some (({ p2 with Includes := NewIncludes url query } : ListParams).setPagination r.1)

/-- Go `ListParams.isJoinExist`. -/
def ListParams.isJoinExist (params : ListParams) (j : join) : Bool :=
  params.joins.any
    (fun v => v.tableName == j.tableName && v.onStatement == j.onStatement
      && v.joinType == j.joinType)

/-- Go `ListParams.AddJoin`. -/
def ListParams.AddJoin (params : ListParams) (tableName onStatement : String)
    (joinType : Join) : ListParams :=
  let j : join := ⟨tableName, onStatement, joinType⟩
  if !params.isJoinExist j then { params with joins := params.joins ++ [j] } else params

/-- Go `ListParams.AddLeftJoin`. -/
def ListParams.AddLeftJoin (params : ListParams) (tableName onStatement : String) :
    ListParams :=
  params.AddJoin tableName onStatement JoinLeft

/-- Go `ListParams.AddRightJoin`. -/
def ListParams.AddRightJoin (params : ListParams) (tableName onStatement : String) :
    ListParams :=
  params.AddJoin tableName onStatement JoinRight

/-- Go `ListParams.AddInnerJoin`. -/
def ListParams.AddInnerJoin (params : ListParams) (tableName onStatement : String) :
    ListParams :=
  params.AddJoin tableName onStatement JoinInner

/-- A call of one of the four methods that add a join. -/
inductive JoinCall where
  | AddJoin (tableName onStatement : String) (joinType : Join)
  | AddLeftJoin (tableName onStatement : String)
  | AddRightJoin (tableName onStatement : String)
  | AddInnerJoin (tableName onStatement : String)

/-- The receiver after a call. -/
def JoinCall.apply (params : ListParams) : JoinCall → ListParams
  | .AddJoin t o j => params.AddJoin t o j
  | .AddLeftJoin t o => params.AddLeftJoin t o
  | .AddRightJoin t o => params.AddRightJoin t o
  | .AddInnerJoin t o => params.AddInnerJoin t o

/-- The tuple (table name, ON clause, join type) a call adds. -/
def JoinCall.tuple : JoinCall → join
  | .AddJoin t o j => ⟨t, o, j⟩
  | .AddLeftJoin t o => ⟨t, o, JoinLeft⟩
  | .AddRightJoin t o => ⟨t, o, JoinRight⟩
  | .AddInnerJoin t o => ⟨t, o, JoinInner⟩

/-- The receiver after a sequence of calls. -/
def applyJoinCalls (params : ListParams) (calls : List JoinCall) : ListParams :=
  calls.foldl JoinCall.apply params

/-! ## includes_params.go: preloads, custom includes, output fields -/

def includesSeparator : Char := '.'

/-- Go `Includes.AddIncludes`. -/
def Includes.AddIncludes (self : Includes) (name : String) : Includes :=
  { self with passedIncludes := self.passedIncludes ++ [name] }

/-- Go `Includes.Allow`. -/
def Includes.Allow (self : Includes) (fields : List String) : Includes :=
  { self with allowedIncludes := fields }

/-- Go `Includes.AddCustomIncludes`. -/
def Includes.AddCustomIncludes (self : Includes) (field : String) (function : FuncRef) :
    Includes :=
  { self with customIncludes := self.customIncludes ++ [⟨field, function⟩] }

/-- Go `Includes.AllowSelectFields`. -/
def Includes.AllowSelectFields (self : Includes) (fieldsSet : List FieldItem) : Includes :=
  { self with fieldsSet := fieldsSet }

/-- Go `Includes.SelectFields`. -/
def Includes.SelectFields (self : Includes) (fields : List FieldItem) : Includes :=
  { self with selectedFields := fields }

/-- Go `Includes.isIncluded`. -/
def Includes.isIncluded (self : Includes) (relation : String) : Bool :=
  self.passedIncludes.any (fun v => v == relation)

/-- Go `Includes.isCustomIncludes`. -/
def Includes.isCustomIncludes (self : Includes) (field : String) : Bool :=
  self.customIncludes.any (fun v => v.Field == field)

/-- Go `Includes.getNotCustomIncludes`. -/
def Includes.getNotCustomIncludes (self : Includes) : List String :=
  self.passedIncludes.foldl
    (fun notCustom includes =>
      if !self.isCustomIncludes includes && self.isIncluded includes then
        notCustom ++ [includes]
      else notCustom)
    []

/-- Go `Includes.transformPreloading`. -/
def Includes.transformPreloading (lib : Lib) (_self : Includes) (field : String) : String :=
  let fields := strings.Split field includesSeparator
  let newField := fields.map (fun v => lib.ToCamel v)
  strings.Join newField (String.singleton includesSeparator)

/-- Go `Includes.GetPreloads`. -/
def Includes.GetPreloads (lib : Lib) (self : Includes) : List String :=
  self.getNotCustomIncludes.map (fun v => self.transformPreloading lib v)

/-- Go `Includes.GetCustomIncludesFunctions`: the references of the functions. -/
def Includes.GetCustomIncludesFunctions (self : Includes) : List FuncRef :=
  self.customIncludes.foldl
    (fun functions customIncludes =>
      if self.isIncluded customIncludes.Field then functions ++ [customIncludes.Func]
      else functions)
    []

/-- Go `hasSelectedFieldStr`. -/
def hasSelectedFieldStr (elem : String) : List FieldItem → Bool
  | [] => false
  | .str field :: rest => if field == elem then true else hasSelectedFieldStr elem rest
  | .map _ :: rest => hasSelectedFieldStr elem rest

/-- The inner loop of `getSelectedFieldsByMapKey` over the keys of one map. -/
def lookupMapKey (mapKey : String) : List (String × List FieldItem) → Option (List FieldItem)
  | [] => none
  | entry :: rest => if entry.1 == mapKey then some entry.2 else lookupMapKey mapKey rest

/-- Go `getSelectedFieldsByMapKey`: the list bound to `mapKey` in the first map
of `selectedFields` that has this key, `none` when no map has it.  A key bound
to a `nil` slice, which the code treats like a key that is absent, is not
represented: the list bound to a key is a slice that is not `nil`. -/
def getSelectedFieldsByMapKey (mapKey : String) : List FieldItem → Option (List FieldItem)
  | [] => none
  | .str _ :: rest => getSelectedFieldsByMapKey mapKey rest
  | .map entries :: rest =>
    match lookupMapKey mapKey entries with
    | some v => some v
    | none => getSelectedFieldsByMapKey mapKey rest

mutual
/-- Go `getFieldsToDisplay`. -/
def getFieldsToDisplay : List FieldItem → List FieldItem → List FieldItem
  | [], _ => []
  | key :: rest, selectedFields =>
    getFieldsToDisplayOf key selectedFields ++ getFieldsToDisplay rest selectedFields
termination_by structural allowedFields => allowedFields
/-- The body of the loop of `getFieldsToDisplay` for one allowed element. -/
def getFieldsToDisplayOf : FieldItem → List FieldItem → List FieldItem
  | .str key, selectedFields =>
    if hasSelectedFieldStr key selectedFields then [.str key] else []
  | .map allowedMap, selectedFields =>
    match getAllowedSelectedMap allowedMap selectedFields with
    | [] => []
    | selectedMap => [.map selectedMap]
termination_by structural key => key
/-- Go `getAllowedSelectedMap`. -/
def getAllowedSelectedMap :
    List (String × List FieldItem) → List FieldItem → List (String × List FieldItem)
  | [], _ => []
  | entry :: rest, selectedFields =>
    getAllowedSelectedEntry entry selectedFields ++ getAllowedSelectedMap rest selectedFields
termination_by structural allowedMap => allowedMap
/-- The body of the loop of `getAllowedSelectedMap` for one key of the map. -/
def getAllowedSelectedEntry :
    String × List FieldItem → List FieldItem → List (String × List FieldItem)
  | (key, value), selectedFields =>
    match getSelectedFieldsByMapKey key selectedFields with
    | some innerSelectedFields => [(key, getFieldsToDisplay value innerSelectedFields)]
    | none => []
termination_by structural entry => entry
end

/-- The name `includedName` that `getOutputFieldsRecursively` looks up for the
group `fieldNameStr` under the groups `rootFields`. -/
def includedName (lib : Lib) (rootFields : List String) (fieldNameStr : String) : String :=
  if rootFields.length == 0 then lib.ToLowerCamel fieldNameStr
  else
    strings.Join
      (rootFields.map (fun rootField => lib.ToLowerCamel rootField) ++
        [lib.ToLowerCamel fieldNameStr])
      "."

mutual
/-- Go `Includes.getOutputFieldsRecursively`. -/
def Includes.getOutputFieldsRecursively (lib : Lib) (self : Includes) :
    List FieldItem → List String → List FieldItem
  | [], _ => []
  | name :: rest, rootFields =>
    Includes.getOutputFieldsOf lib self name rootFields ++
      Includes.getOutputFieldsRecursively lib self rest rootFields
/-- The body of the loop of `getOutputFieldsRecursively` for one element. -/
def Includes.getOutputFieldsOf (lib : Lib) (self : Includes) :
    FieldItem → List String → List FieldItem
  | .str name, _ => [.str name]
  | .map entries, rootFields => Includes.getOutputFieldsOfMap lib self entries rootFields
/-- The loop of `getOutputFieldsRecursively` over the keys of a map. -/
def Includes.getOutputFieldsOfMap (lib : Lib) (self : Includes) :
    List (String × List FieldItem) → List String → List FieldItem
  | [], _ => []
  | entry :: rest, rootFields =>
    Includes.getOutputFieldsOfEntry lib self entry rootFields ++
      Includes.getOutputFieldsOfMap lib self rest rootFields
/-- The body of that loop for one key: the group is kept, as a map of its own,
when its `includedName` is a requested include. -/
def Includes.getOutputFieldsOfEntry (lib : Lib) (self : Includes) :
    String × List FieldItem → List String → List FieldItem
  | (fieldNameStr, mapFields), rootFields =>
    if self.isIncluded (includedName lib rootFields fieldNameStr) then
      [.map [(fieldNameStr,
        Includes.getOutputFieldsRecursively lib self mapFields (rootFields ++ [fieldNameStr]))]]
    else []
end

/-- Go `Includes.GetOutputFields`. -/
def Includes.GetOutputFields (lib : Lib) (self : Includes) : List FieldItem :=
  let fieldToDisplay :=
    if self.selectedFields.length > 0 then getFieldsToDisplay self.fieldsSet self.selectedFields
    else self.fieldsSet
  self.getOutputFieldsRecursively lib fieldToDisplay []

/-! ## Reading a fields list as a tree -/

mutual
/-- The leaf names at the node reached from the root through the groups named
by `path`, in order. -/
def leavesAt : List FieldItem → List String → List String
  | [], _ => []
  | item :: rest, path => leavesAtOf item path ++ leavesAt rest path
/-- The leaves at `path` that come from one element. -/
def leavesAtOf : FieldItem → List String → List String
  | .str name, [] => [name]
  | .str _, _ :: _ => []
  | .map _, [] => []
  | .map entries, group :: path => leavesAtMap entries group path
/-- The leaves at `group :: path` that come from the keys of one map. -/
def leavesAtMap : List (String × List FieldItem) → String → List String → List String
  | [], _, _ => []
  | entry :: rest, group, path => leavesAtEntry entry group path ++ leavesAtMap rest group path
/-- The leaves at `group :: path` that come from one key of a map. -/
def leavesAtEntry : String × List FieldItem → String → List String → List String
  | (name, fields), group, path => if name = group then leavesAt fields path else []
end

mutual
/-- The names of the groups directly under the node reached through `path`,
in order. -/
def groupsAt : List FieldItem → List String → List String
  | [], _ => []
  | item :: rest, path => groupsAtOf item path ++ groupsAt rest path
/-- The groups at `path` that come from one element. -/
def groupsAtOf : FieldItem → List String → List String
  | .str _, _ => []
  | .map entries, [] => entries.map (fun entry => entry.1)
  | .map entries, group :: path => groupsAtMap entries group path
/-- The groups at `group :: path` that come from the keys of one map. -/
def groupsAtMap : List (String × List FieldItem) → String → List String → List String
  | [], _, _ => []
  | entry :: rest, group, path => groupsAtEntry entry group path ++ groupsAtMap rest group path
/-- The groups at `group :: path` that come from one key of a map. -/
def groupsAtEntry : String × List FieldItem → String → List String → List String
  | (name, fields), group, path => if name = group then groupsAt fields path else []
end

mutual
/-- Group names are unique among siblings at every level below the top one. -/
def uniqueGroupsBelow : List FieldItem → Bool
  | [] => true
  | item :: rest => uniqueGroupsBelowOf item && uniqueGroupsBelow rest
/-- The same for one element. -/
def uniqueGroupsBelowOf : FieldItem → Bool
  | .str _ => true
  | .map entries => uniqueGroupsBelowMap entries
/-- The same for the keys of one map. -/
def uniqueGroupsBelowMap : List (String × List FieldItem) → Bool
  | [] => true
  | entry :: rest => uniqueGroupsBelowEntry entry && uniqueGroupsBelowMap rest
/-- The same for one key of a map. -/
def uniqueGroupsBelowEntry : String × List FieldItem → Bool
  | (_, fields) => decide (groupsAt fields []).Nodup && uniqueGroupsBelow fields
end

/-- Group names are unique among siblings, at every level of the tree. -/
def uniqueGroups (items : List FieldItem) : Bool :=
  decide (groupsAt items []).Nodup && uniqueGroupsBelow items

/-- Every group on `path`, entered below the groups `rootFields`, is a requested
include: the `includedName` of each of them is among the requested tokens. -/
def Includes.includedFrom (lib : Lib) (self : Includes) : List String → List String → Bool
  | _, [] => true
  | rootFields, group :: path =>
    self.isIncluded (includedName lib rootFields group) &&
      Includes.includedFrom lib self (rootFields ++ [group]) path

/-! ## includes_params.go: select query; adapters/gorm.go -/

mutual
/-- Go `Includes.selectQueryRecursively`. -/
def Includes.selectQueryRecursively (lib : Lib) (self : Includes) :
    List FieldItem → List String → List String
  | [], _ => []
  | field :: rest, rootElements =>
    Includes.selectQueryOf lib self field rootElements ++
      Includes.selectQueryRecursively lib self rest rootElements
termination_by structural fields => fields
/-- The body of the loop of `selectQueryRecursively` for one element. -/
def Includes.selectQueryOf (lib : Lib) (self : Includes) :
    FieldItem → List String → List String
  | .str selectField, rootElements =>
    [strings.Join (rootElements ++ [selectField]) (String.singleton includesSeparator)]
  | .map entries, rootElements => Includes.selectQueryOfMap lib self entries rootElements
termination_by structural field => field
/-- The loop of `selectQueryRecursively` over the keys of a map. -/
def Includes.selectQueryOfMap (lib : Lib) (self : Includes) :
    List (String × List FieldItem) → List String → List String
  | [], _ => []
  | entry :: rest, rootElements =>
    Includes.selectQueryOfEntry lib self entry rootElements ++
      Includes.selectQueryOfMap lib self rest rootElements
termination_by structural entries => entries
/-- The body of that loop for one key: the subtree is walked unless the snake
case of the key is the field of a custom include. -/
def Includes.selectQueryOfEntry (lib : Lib) (self : Includes) :
    String × List FieldItem → List String → List String
  | (key, values), rootElements =>
    let newKey := lib.ToSnake key
    if !self.isCustomIncludes newKey then
      Includes.selectQueryRecursively lib self values (rootElements ++ [newKey])
    else []
termination_by structural entry => entry
end

/-- Go `Includes.GetSelectQuery`. -/
def Includes.GetSelectQuery (lib : Lib) (self : Includes) : List String :=
  if self.fieldsSet.length == 0 then ["*"]
  else self.selectQueryRecursively lib (self.GetOutputFields lib) []

/-- Go `transformSelectQuery` of `adapters/gorm.go`, with `transformRootField`
(which inspects the record type by reflection and panics on an unknown field)
as a parameter.  `paramsQuery[0]` panics on the empty list. -/
def adapters.transformSelectQuery (transformRootField : String → Option String)
    (paramsQuery : List String) : Option (List String) :=
  match paramsQuery with
  | [] => none
  | first :: _ =>
    if first == "*" then some paramsQuery
    else paramsQuery.mapM transformRootField

/-! ## fields.go -/

def defaultFieldsDelimiter : Char := '.'

/-- Go `type Fields struct`; the field `NestedFields` is declared before the
field `List`, whose name hides the type `List` after it. -/
structure Fields where
  PropName : String
  NestedFields : List Fields
  List : List String

mutual
/-- Go `addFieldToFields(model, field)`: the model after the call.  The first
argument bounds the depth of the calls; `none` is a panic or a bound that is
too small. -/
def addFieldToFields : Nat → Fields → String → Option Fields
  | 0, _, _ => none
  | fuel + 1, model, field =>
    let splitedValue := strings.Split field defaultFieldsDelimiter
    if splitedValue.length == 1 then some { model with List := model.List ++ [field] }
    else addNestedFieldToFields fuel model splitedValue
/-- Go `addNestedFieldToFields(model, splitedField)`: the model after the call.
In the loop `v` is a copy of the element of `model.NestedFields`, so what
`addFieldToFields(&v, ...)` adds to it is not in the model. -/
def addNestedFieldToFields : Nat → Fields → List String → Option Fields
  | 0, _, _ => none
  | _ + 1, _, [] => none
  | fuel + 1, model, first :: rest =>
    match model.NestedFields.find? (fun v => v.PropName == first) with
    | some v =>
      (addFieldToFields fuel v
        (strings.Join rest (String.singleton defaultFieldsDelimiter))).map
        (fun _ => model)
    | none =>
      (addFieldToFields fuel { PropName := first, List := [], NestedFields := [] }
        (strings.Join rest (String.singleton defaultFieldsDelimiter))).map
        (fun newFields => { model with NestedFields := model.NestedFields ++ [newFields] })
end

/-- Go `StringsArrayToFields`.  The calls for a token nest twice as deep as the
token has segments at most. -/
def StringsArrayToFields (values : List String) : Option Fields :=
  values.foldlM
    (fun fields value =>
      addFieldToFields (2 * (strings.Split value defaultFieldsDelimiter).length) fields value)
    { PropName := "", List := [], NestedFields := [] }

/-- Go map assignment `m[key] = value` on the list of entries: the value of
an existing key is replaced, a new key is added at the end. -/
def mapAssign (entries : List (String × List FieldItem)) (key : String)
    (value : List FieldItem) : List (String × List FieldItem) :=
  match entries with
  | [] => [(key, value)]
  | entry :: rest =>
    if entry.1 == key then (key, value) :: rest else entry :: mapAssign rest key value

mutual
/-- Go `Fields.ToInterfaceArray`. -/
def Fields.ToInterfaceArray : Fields → List FieldItem
  | ⟨_, nested, list⟩ => list.map FieldItem.str ++ [FieldItem.map (nestedMapOf nested [])]
termination_by structural f => f
/-- The second loop of `ToInterfaceArray`: `nestedMap` after the remaining
nested fields. -/
def nestedMapOf :
    List Fields → List (String × List FieldItem) → List (String × List FieldItem)
  | [], nestedMap => nestedMap
  | v :: rest, nestedMap =>
    nestedMapOf rest (mapAssign nestedMap v.PropName v.ToInterfaceArray)
termination_by structural nested => nested
end

mutual
/-- The loop of `interfaceArrayToFieldsRecursively`: `newFields` after the
remaining values. -/
def interfaceArrayLoop : List FieldItem → Fields → Fields
  | [], newFields => newFields
  | field :: rest, newFields => interfaceArrayLoop rest (interfaceArrayStep field newFields)
termination_by structural values => values
/-- The body of that loop for one value. -/
def interfaceArrayStep : FieldItem → Fields → Fields
  | .str field, newFields => { newFields with List := newFields.List ++ [field] }
  | .map entries, newFields => interfaceArrayMapLoop entries newFields
termination_by structural field => field
/-- The inner loop over the keys of a map. -/
def interfaceArrayMapLoop : List (String × List FieldItem) → Fields → Fields
  | [], newFields => newFields
  | entry :: rest, newFields =>
    interfaceArrayMapLoop rest (interfaceArrayMapStep entry newFields)
termination_by structural entries => entries
/-- The body of the inner loop for one key: the nested fields built from its
list, `interfaceArrayToFieldsRecursively(k, mapFields)`, are appended. -/
def interfaceArrayMapStep : String × List FieldItem → Fields → Fields
  | (k, mapFields), newFields =>
    { newFields with
      NestedFields := newFields.NestedFields ++
        [interfaceArrayLoop mapFields { PropName := k, List := [], NestedFields := [] }] }
termination_by structural entry => entry
end

/-- Go `interfaceArrayToFieldsRecursively`. -/
def interfaceArrayToFieldsRecursively (propName : String) (values : List FieldItem) : Fields :=
  interfaceArrayLoop values { PropName := propName, List := [], NestedFields := [] }

/-- Go `InterfaceArrayToFields`. -/
def InterfaceArrayToFields (values : List FieldItem) : Fields :=
  interfaceArrayToFieldsRecursively "" values

/-! ## Reading a `Fields` tree -/

/-- What one token, given by its segments, adds to a node: a single segment
becomes a leaf; otherwise, when the node has no child named by the first
segment, a child of that name built from the remaining segments is added, and
when it has one, nothing. -/
def insertPath (model : Fields) : List String → Fields
  | [] => model
  | [leaf] => { model with List := model.List ++ [leaf] }
  | first :: second :: rest =>
    match model.NestedFields.find? (fun v => v.PropName == first) with
    | some _ => model
    | none =>
      { model with
        NestedFields := model.NestedFields ++
          [insertPath { PropName := first, List := [], NestedFields := [] } (second :: rest)] }

mutual
/-- No node of the tree has two children with the same `PropName`. -/
def Fields.uniqueNames : Fields → Bool
  | ⟨_, nested, _⟩ =>
    decide (nested.map (fun v => v.PropName)).Nodup && allUniqueNames nested
termination_by structural f => f
/-- Every tree of the list satisfies `uniqueNames`. -/
def allUniqueNames : List Fields → Bool
  | [] => true
  | v :: rest => v.uniqueNames && allUniqueNames rest
termination_by structural nested => nested
end

mutual
/-- The number of leaf names in the tree. -/
def Fields.leafCount : Fields → Nat
  | ⟨_, nested, list⟩ => list.length + leafCountOf nested
termination_by structural f => f
/-- The number of leaf names in the trees of a list. -/
def leafCountOf : List Fields → Nat
  | [] => 0
  | v :: rest => v.leafCount + leafCountOf rest
termination_by structural nested => nested
end

mutual
/-- The nested representation `other` is `item` with the keys of every map,
at every depth, listed in another order: what a different iteration order of
the Go maps makes of `item`. -/
def FieldItem.reordered : FieldItem → FieldItem → Prop
  | .str field, other => other = .str field
  | .map entries, other =>
    ∃ middle entries', other = .map entries' ∧ entriesReordered entries middle ∧
      middle.Perm entries'
termination_by structural item => item
/-- The lists have the same length and each value of `other` is the value of
the first list at its position, reordered. -/
def itemsReordered : List FieldItem → List FieldItem → Prop
  | [], other => other = []
  | item :: rest, other =>
    ∃ item' rest', other = item' :: rest' ∧ item.reordered item' ∧ itemsReordered rest rest'
termination_by structural items => items
/-- The entries of `other` have the keys of the first list, in its order, each
with the list of that key reordered. -/
def entriesReordered :
    List (String × List FieldItem) → List (String × List FieldItem) → Prop
  | [], other => other = []
  | entry :: rest, other =>
    ∃ mapFields' rest', other = (entry.1, mapFields') :: rest' ∧
      entryReordered entry mapFields' ∧ entriesReordered rest rest'
termination_by structural entries => entries
/-- The list of one key, reordered. -/
def entryReordered : String × List FieldItem → List FieldItem → Prop
  | (_, mapFields), mapFields' => itemsReordered mapFields mapFields'
termination_by structural entry => entry
end

mutual
/-- The tree `other` has, at every node, the PropName, the leaf names and the
children of the first tree, the children in any order. -/
def Fields.sameUpToOrder : Fields → Fields → Prop
  | ⟨name, nested, list⟩, other =>
    other.PropName = name ∧ other.List = list ∧
      ∃ middle, childrenSameUpToOrder nested middle ∧ middle.Perm other.NestedFields
termination_by structural f => f
/-- The lists have the same length and each tree of `other` is the tree of the
first list at its position, up to the order of children. -/
def childrenSameUpToOrder : List Fields → List Fields → Prop
  | [], other => other = []
  | v :: rest, other =>
    ∃ v' rest', other = v' :: rest' ∧ v.sameUpToOrder v' ∧ childrenSameUpToOrder rest rest'
termination_by structural nested => nested
end

/-! ## Reading a validation -/

/-- The errors one call of `ListParams.Validate` adds on `params` when its
`Includes` point to `includes`: one for each Sorting whose field is not in the
sorting allow-list, one for each Filter whose pair is not in the filter
allow-list, the errors `includes.Validate` returns, and the pagination
error. -/
def ListParams.recordedErrors (params : ListParams) (includes : list_params.Includes) :
    List GoError :=
  (params.Sortings.filter
      (fun v => decide (v.Field ∉ params.allowedListParams.Sortings))).map
    (fun v => NewErrorString ("Sorting by " ++ v.Field ++ " in not allowed")) ++
  (params.Filters.filter
      (fun v => decide (v.toFieldOperatorPair ∉ params.allowedListParams.Filters))).map
    (fun v => NewErrorString
      ("Filter " ++ v.Field ++ " is not allowed with operator " ++ v.Operator)) ++
  includes.Validate.1.2 ++
  (if params.allowedListParams.Pagination = false ∧
      (params.Pagination.PageNumber ≠ 1 ∨
        (params.Pagination.PageSize ≠ 20 ∧ params.Pagination.PageSize ≠ 0)) then
    [NewErrorString "Pagination is not allowed"]
  else [])

/-! ## Example data -/

/-- A library instance: `createdAt` becomes `created_at`, the plural of `User`
is `Users`, whose snake case is `users`; the other names used in the examples
are already in snake case. -/
def exLib : Lib :=
  { ToSnake := fun s =>
      if s = "createdAt" then "created_at" else if s = "Users" then "users" else s
    ToCamel := fun s => s
    ToLowerCamel := fun s => s
    Plural := fun s => s ++ "s" }

/-- A callback table: filter function `0` returns a condition without bind
arguments (`"deleted_at IS NULL", nil`), every other one a condition with
the two arguments `[]string{"x", "y"}`; sorting function `0` fails, every
other one returns `"rank"`. -/
def exCallbacks : Callbacks :=
  { filterFunc := fun r _ _ =>
      if r = 0 then ("deleted_at IS NULL", Value.nil)
      else ("(a = ? OR b = ?)", Value.slice [Value.str "x", Value.str "y"])
    sortingFunc := fun r _ _ =>
      if r = 0 then ("", some ⟨"no order"⟩) else ("rank", none) }

/-- Includes requesting `comments` where only `posts` is allowed. -/
def exIncludes : Includes :=
  { passedIncludes := ["comments"]
    customIncludes := []
    errors := []
    allowedIncludes := ["posts"]
    fieldsSet := []
    selectedFields := [] }

/-- A record type `User` without tagged fields and without a `TableName`
method: its table is `users`. -/
def exObjectType : ObjectType :=
  { Name := "User", Fields := [], TableName := none }

/-- A ListParams on `exObjectType` with nothing requested and nothing allowed. -/
def exParams : ListParams :=
  { Sortings := []
    Filters := []
    Includes := some { exIncludes with passedIncludes := [] }
    Pagination := ⟨1, 20⟩
    ObjectType := exObjectType
    allowedListParams := ⟨[], [], false⟩
    customFilters := []
    customIncludes := []
    customSortings := []
    errors := []
    joins := []
    groupBy := none }

/-- The filter of `filter[status:in]=a,b,c`. -/
def exFilterIn : FilterListParameter :=
  { Field := "status", Operator := OperatorIn, Values := ["a", "b", "c"] }

/-- A ListParams with one allowed sorting, one allowed and one not allowed
filter, the include `comments` that is not allowed, and page 2 requested
while pagination is not allowed. -/
def exParamsValidate : ListParams :=
  { exParams with
    Sortings := [⟨"createdAt", DescDirection⟩]
    Filters := [⟨⟨"age", OperatorLike⟩, ["3"]⟩, ⟨⟨"name", OperatorEq⟩, ["bob"]⟩]
    Includes := some exIncludes
    Pagination := ⟨2, 20⟩
    allowedListParams := ⟨["createdAt"], [⟨"name", OperatorEq⟩], false⟩ }

/-- The ListParams of `sort=-createdAt` on table `users`. -/
def exParamsSort : ListParams :=
  { exParams with Sortings := [⟨"createdAt", DescDirection⟩] }

/-- Sortings by `rank` (custom function `1`, which succeeds), by `broken`
(custom function `0`, which fails) and by `createdAt` (no custom function). -/
def exParamsCustomSort : ListParams :=
  { exParams with
    Sortings := [⟨"rank", AscDirection⟩, ⟨"broken", AscDirection⟩, ⟨"createdAt", DescDirection⟩]
    customSortings := [⟨"rank", 1⟩, ⟨"broken", 0⟩, ⟨"rank", 0⟩] }

/-- Filters added with `AddFilter("age", []string{}, OperatorLike)` and
`AddFilter("name", []string{"bob"})`: a like filter with zero values, then an
eq filter. -/
def exParamsLike : ListParams :=
  { exParams with
    Filters := [⟨⟨"age", OperatorLike⟩, []⟩, ⟨⟨"name", OperatorEq⟩, ["bob"]⟩] }

/-- The same two filters in the other order. -/
def exParamsLikeLast : ListParams :=
  { exParams with
    Filters := [⟨⟨"name", OperatorEq⟩, ["bob"]⟩, ⟨⟨"age", OperatorLike⟩, []⟩] }

/-- The eq filter alone. -/
def exParamsOnlyEq : ListParams :=
  { exParams with Filters := [⟨⟨"name", OperatorEq⟩, ["bob"]⟩] }

/-- A filter on `fullName`, which is in the filter allow-list for eq and has
custom filter `1` registered first and custom filter `0` second. -/
def exParamsCustomFilter : ListParams :=
  { exParams with
    Filters := [⟨⟨"fullName", OperatorEq⟩, ["ann"]⟩, ⟨⟨"name", OperatorEq⟩, ["bob"]⟩]
    allowedListParams := ⟨[], [⟨"fullName", OperatorEq⟩], false⟩
    customFilters := [⟨"fullName", 1⟩, ⟨"fullName", 0⟩] }

/-- A filter on `deletedAt` with custom filter `0`, which returns the condition
`deleted_at IS NULL` and `nil` for its bind values. -/
def exParamsNilFilter : ListParams :=
  { exParams with
    Filters := [⟨⟨"deletedAt", OperatorEq⟩, ["true"]⟩]
    customFilters := [⟨"deletedAt", 0⟩] }

/-- A record type with a tagged field that overrides its column, a tagged
field without override and an untagged field. -/
def exObjectTypeTagged : ObjectType :=
  { Name := "User"
    Fields :=
      [⟨"ID", [("json", "id"), ("db", "user_id")]⟩,
        ⟨"createdAt", [("json", "created")]⟩,
        ⟨"Email", []⟩]
    TableName := none }

/-- A `net/url` instance in which nothing needs unescaping and three queries
parse. -/
def exUrl : NetUrl :=
  { PathUnescape := fun s => (s, none)
    ParseQuery := fun s =>
      if s = "" then ([], none)
      else if s = "page[number]=0" then ([("page[number]", ["0"])], none)
      else if s = "page[number]=3&page[size]=10" then
        ([("page[number]", ["3"]), ("page[size]", ["10"])], none)
      else ([], some ⟨"invalid URL escape"⟩) }

/-- The ListParams built from the empty query. -/
def exParamsBuilt : ListParams :=
  { NewListParams exObjectType with Pagination := ⟨1, 20⟩ }

/-- The ListParams built from the query `page[number]=3&page[size]=10`. -/
def exParamsPage3 : ListParams :=
  { NewListParams exObjectType with Pagination := ⟨3, 10⟩ }

/-- The two identical calls `AddJoin("orders", "orders.id = x.order_id", JoinLeft)`
followed by the same join as an inner join. -/
def exJoinCalls : List JoinCall :=
  [.AddJoin "orders" "orders.id = x.order_id" JoinLeft,
    .AddJoin "orders" "orders.id = x.order_id" JoinLeft,
    .AddInnerJoin "orders" "orders.id = x.order_id"]

/-- Includes requesting `author`, `author.likes` and `stats`, with custom
includes registered for `stats`, `rating` and `author.likes`. -/
def exIncludesCustom : Includes :=
  { Includes.zero with
    passedIncludes := ["author", "author.likes", "stats", "author.posts"]
    customIncludes := [⟨"stats", 7⟩, ⟨"rating", 8⟩, ⟨"author.likes", 9⟩] }

/-- A library instance whose camel case capitalises the names of the examples. -/
def exLibCamel : Lib :=
  { exLib with
    ToCamel := fun s =>
      if s = "author" then "Author" else if s = "posts" then "Posts" else s }

/-- The allowed fields tree of the examples. -/
def exFieldsSet : List FieldItem :=
  [.str "id", .str "name",
    .map [("author", [.str "id", .str "email", .map [("likes", [.str "count"])]]),
      ("comments", [.str "text"])]]

/-- A sparse fieldset on `exFieldsSet`. -/
def exSelectedFields : List FieldItem :=
  [.str "id", .map [("author", [.str "email", .str "phone"])], .map [("comments", [.str "text"])]]

/-- Includes requesting `author` and `author.likes` on `exFieldsSet`. -/
def exIncludesTree : Includes :=
  { Includes.zero with
    passedIncludes := ["author", "author.likes"]
    fieldsSet := exFieldsSet }

/-- The same with the sparse fieldset `exSelectedFields`. -/
def exIncludesSelected : Includes :=
  { exIncludesTree with selectedFields := exSelectedFields }

/-- The ListParams of `filter[status]=a,b` on table `users`. -/
def exParamsTwoValues : ListParams :=
  { exParams with Filters := [⟨⟨"status", OperatorEq⟩, ["a", "b"]⟩] }

/-- A `net/url` instance that parses the queries `sort=` and `xfilter[a]=1`. -/
def exUrlKeys : NetUrl :=
  { PathUnescape := fun s => (s, none)
    ParseQuery := fun s =>
      if s = "sort=" then ([("sort", [""])], none)
      else if s = "xfilter[a]=1" then ([("xfilter[a]", ["1"])], none)
      else ([], none) }

/-- A library instance with the snake case of `userGroups`. -/
def exLibGroups : Lib :=
  { exLib with
    ToSnake := fun s => if s = "userGroups" then "user_groups" else s }

/-- Includes requesting `userGroups` and `author`, both registered as custom
includes, on a fields tree with a group for each. -/
def exIncludesUserGroups : Includes :=
  { Includes.zero with
    passedIncludes := ["userGroups", "author"]
    customIncludes := [⟨"userGroups", 5⟩, ⟨"author", 6⟩]
    fieldsSet :=
      [.str "id", .map [("userGroups", [.str "name"])], .map [("author", [.str "email"])]] }

/-- Includes with a declared fields tree that has no leaf at the root, and no
requested include. -/
def exIncludesNoRoot : Includes :=
  { Includes.zero with fieldsSet := [.map [("author", [.str "id"])]] }

/-- Includes on `exFieldsSet` with a sparse fieldset that names no allowed
field. -/
def exIncludesNoneSelected : Includes :=
  { Includes.zero with fieldsSet := exFieldsSet, selectedFields := [.str "unknown"] }

/-- The tokens `author.id`, `group.name`. -/
def exTokensTwoGroups : List String := ["author.id", "group.name"]

/-- The tree of `exTokensTwoGroups`. -/
def exTreeTwoGroups : Fields :=
  { PropName := ""
    List := []
    NestedFields :=
      [{ PropName := "author", List := ["id"], NestedFields := [] },
       { PropName := "group", List := ["name"], NestedFields := [] }] }

/-- The nested representation of `exTreeTwoGroups` with the key `group` of its
map before the key `author`. -/
def exItemsGroupFirst : List FieldItem :=
  [.map [("group", [.str "name", .map []]), ("author", [.str "id", .map []])]]

/-- A `net/url` instance on the query `sort=%zz`, whose percent-escape is not
valid: `url.PathUnescape` returns the empty string and an error for it,
`url.ParseQuery` the empty map and an error; the empty string parses to the
empty map. -/
def exUrlEscape : NetUrl :=
  { PathUnescape := fun s =>
      if s = "sort=%zz" then ("", some ⟨"invalid URL escape \"%zz\""⟩) else (s, none)
    ParseQuery := fun s =>
      if s = "sort=%zz" then ([], some ⟨"invalid URL escape \"%zz\""⟩) else ([], none) }

/-- The ListParams built from the query `sort=%zz`: its `Includes` are `nil`. -/
def exParamsNoIncludes : ListParams :=
  { NewListParams exObjectType with Includes := none, Pagination := ⟨1, 20⟩ }

/-! ## Lemmas on `strings.Split` and `strings.Join` -/

theorem splitChars_length (sep : Char) (l : List Char) :
    (splitChars sep l).length = l.count sep + 1 := by
  induction l with
  | nil => simp [splitChars]
  | cons c cs ih =>
    unfold splitChars
    by_cases h : c = sep
    · subst h
      simp [ih]
    · rw [if_neg h]
      have hc : List.count sep (c :: cs) = List.count sep cs := by
        rw [List.count_cons_of_ne (Ne.symm h)]
      rw [hc, ← ih]
      cases hs : splitChars sep cs with
      | nil => rw [hs] at ih; simp at ih
      | cons x xs => simp

theorem splitChars_of_not_mem (sep : Char) (l : List Char) (h : sep ∉ l) :
    splitChars sep l = [l] := by
  induction l with
  | nil => rfl
  | cons c cs ih =>
    have hc : c ≠ sep := fun e => h (by simp [e])
    have hcs : sep ∉ cs := fun e => h (by simp [e])
    simp only [splitChars, if_neg hc, ih hcs]

theorem splitChars_append_sep (sep : Char) (a b : List Char) (h : sep ∉ a) :
    splitChars sep (a ++ sep :: b) = a :: splitChars sep b := by
  induction a with
  | nil => simp [splitChars]
  | cons c cs ih =>
    have hc : c ≠ sep := fun e => h (by simp [e])
    have hcs : sep ∉ cs := fun e => h (by simp [e])
    show splitChars sep (c :: (cs ++ sep :: b)) = (c :: cs) :: splitChars sep b
    rw [splitChars, if_neg hc, ih hcs]

theorem Split_length_eq_one_iff (s : String) (sep : Char) :
    (strings.Split s sep).length = 1 ↔ sep ∉ s.data := by
  unfold strings.Split
  rw [List.length_map, splitChars_length]
  constructor
  · intro h
    have h0 : List.count sep s.data = 0 := by omega
    exact List.count_eq_zero.mp h0
  · intro h
    rw [List.count_eq_zero.mpr h]

theorem Split_of_not_mem (s : String) (sep : Char) (h : sep ∉ s.data) :
    strings.Split s sep = [s] := by
  unfold strings.Split
  rw [splitChars_of_not_mem sep s.data h]
  rfl

theorem Split_append_sep (a b : String) (sep : Char) (h : sep ∉ a.data) :
    strings.Split (a ++ String.singleton sep ++ b) sep = a :: strings.Split b sep := by
  unfold strings.Split
  have hd : (a ++ String.singleton sep ++ b).data = a.data ++ sep :: b.data := by
    simp [String.data_append, String.singleton]
  rw [hd, splitChars_append_sep sep a.data b.data h]
  rfl

theorem Join_singleton (a sep : String) : strings.Join [a] sep = a := rfl

theorem Join_pair (a b sep : String) : strings.Join [a, b] sep = a ++ sep ++ b := rfl

theorem countChar_append (c : Char) (a b : String) :
    countChar c (a ++ b) = countChar c a + countChar c b := by
  simp [countChar, String.data_append]

/-! ## Operator table -/

theorem expressionTemplate_of_ne_nil (field connector operator : String)
    (values : List String) (h : values ≠ []) :
    expressionTemplate field connector operator values =
      (strings.Join (List.replicate values.length (field ++ " " ++ operator ++ " ?"))
          (" " ++ connector ++ " "),
        values.map Value.str) := by
  match values, h with
  | [_], _ => rfl
  | _ :: _ :: _, _ => rfl

/-- C3: for a non-empty value list `v1..vn`, the operator-table entries of eq,
neq, lt, gt, lte and gte return `n` copies of `field <sym> ?` joined by
`" OR "` (eq, neq) or `" AND "` (lt, gt, lte, gte), with the bind arguments
`[v1, ..., vn]` in the same order. -/
theorem operations_comparison_spec (field : String) (values : List String)
    (op : Operator) (connector sym : String) (hv : values ≠ [])
    (hop : (op, connector, sym) ∈
      [(OperatorEq, "OR", "="), (OperatorNeq, "OR", "!="), (OperatorLt, "AND", "<"),
        (OperatorGt, "AND", ">"), (OperatorLte, "AND", "<="), (OperatorGte, "AND", ">=")]) :
    ∃ f : operation, operations op = some f ∧
      f field values =
        (strings.Join (List.replicate values.length (field ++ " " ++ sym ++ " ?"))
            (" " ++ connector ++ " "),
          values.map Value.str) := by
  simp only [List.mem_cons, Prod.mk.injEq, List.mem_singleton, List.not_mem_nil, or_false] at hop
  rcases hop with ⟨h1, h2, h3⟩ | ⟨h1, h2, h3⟩ | ⟨h1, h2, h3⟩ | ⟨h1, h2, h3⟩ | ⟨h1, h2, h3⟩ |
    ⟨h1, h2, h3⟩ <;> subst h1 h2 h3 <;>
    exact ⟨_, rfl, expressionTemplate_of_ne_nil field _ _ values hv⟩

theorem operations_comparison_spec_witness :
    ["a", "b"] ≠ [] ∧
      ∃ f : operation, operations OperatorNeq = some f ∧
        f "users.status" ["a", "b"] =
          ("users.status != ? OR users.status != ?", [Value.str "a", Value.str "b"]) :=
  ⟨by decide,
    operations_comparison_spec "users.status" ["a", "b"] OperatorNeq "OR" "!=" (by decide)
      (by decide)⟩

/-- C5: the like operator returns the empty fragment and no arguments for an
empty value list, and otherwise `field LIKE ?` with the single argument
`"%" + v1 + "%"` made from the first value, whatever the later values are. -/
theorem operations_like_spec (field : String) :
    ∃ f : operation, operations OperatorLike = some f ∧
      f field [] = ("", []) ∧
      ∀ (v : String) (rest : List String),
        f field (v :: rest) = (field ++ " LIKE ?", [Value.str ("%" ++ v ++ "%")]) :=
  ⟨_, rfl, rfl, fun _ _ => rfl⟩

/-! ## Name qualification -/

theorem addTablePrefix_eq (lib : Lib) (params : ListParams) (field : String) :
    params.addTablePrefix lib field =
      (match params.ObjectType.TableName with
        | some result => result
        | none => lib.ToSnake (lib.Plural params.ObjectType.Name)) ++ "." ++ field := rfl

/-- C4: for operator in (resp. nin) and any value list,
`GetConditionPartFromUsualFilter` returns `<name> IN (?)` (resp.
`<name> NOT IN (?)`), one placeholder more than `<name>` holds question marks,
where `<name>` is the transformed field name, prefixed with the table name when
it has no `"."`; the bind arguments are the filter's values in their order. -/
theorem GetConditionPartFromUsualFilter_in_nin (lib : Lib) (params : ListParams)
    (filter : FilterListParameter)
    (hop : filter.Operator = OperatorIn ∨ filter.Operator = OperatorNin) :
    let transformed := params.transformName lib filter.Field
    let table :=
      match params.ObjectType.TableName with
      | some result => result
      | none => lib.ToSnake (lib.Plural params.ObjectType.Name)
    let name := if '.' ∈ transformed.data then transformed else table ++ "." ++ transformed
    let keyword := if filter.Operator = OperatorIn then " IN (?)" else " NOT IN (?)"
    params.GetConditionPartFromUsualFilter lib filter =
        (name ++ keyword, Value.slice (filter.Values.map Value.str)) ∧
      countChar '?' (name ++ keyword) = countChar '?' name + 1 := by
  intro transformed table name keyword
  have hname : (if (strings.Split transformed sqlTableFieldDelimiter).length == 1 then
      params.addTablePrefix lib transformed else transformed) = name := by
    by_cases hd : '.' ∈ transformed.data
    · have hl : ¬ (strings.Split transformed sqlTableFieldDelimiter).length = 1 := fun e =>
        (Split_length_eq_one_iff transformed sqlTableFieldDelimiter).mp e hd
      simp only [beq_iff_eq, if_neg hl, name, if_pos hd]
    · have hl : (strings.Split transformed sqlTableFieldDelimiter).length = 1 :=
        (Split_length_eq_one_iff transformed sqlTableFieldDelimiter).mpr hd
      simp only [beq_iff_eq, if_pos hl, name, if_neg hd, addTablePrefix_eq, table]
  rcases hop with h | h
  · have hk : keyword = " IN (?)" := by simp only [keyword, if_pos h]
    refine ⟨?_, ?_⟩
    · unfold ListParams.GetConditionPartFromUsualFilter
      rw [h]
      show ((if (strings.Split transformed sqlTableFieldDelimiter).length == 1 then
        params.addTablePrefix lib transformed else transformed) ++ " IN (?)", _) = _
      rw [hname, hk]
    · rw [hk, countChar_append]; rfl
  · have hne : ¬ filter.Operator = OperatorIn := by rw [h]; decide
    have hk : keyword = " NOT IN (?)" := by simp only [keyword, if_neg hne]
    refine ⟨?_, ?_⟩
    · unfold ListParams.GetConditionPartFromUsualFilter
      rw [h]
      show ((if (strings.Split transformed sqlTableFieldDelimiter).length == 1 then
        params.addTablePrefix lib transformed else transformed) ++ " NOT IN (?)", _) = _
      rw [hname, hk]
    · rw [hk, countChar_append]; rfl

theorem GetConditionPartFromUsualFilter_in_nin_witness :
    (exFilterIn.Operator = OperatorIn ∨ exFilterIn.Operator = OperatorNin) ∧
      exParams.GetConditionPartFromUsualFilter exLib exFilterIn =
        ("users.status IN (?)", Value.slice [Value.str "a", Value.str "b", Value.str "c"]) ∧
      countChar '?' "users.status IN (?)" = countChar '?' "users.status" + 1 :=
  ⟨Or.inl rfl, GetConditionPartFromUsualFilter_in_nin exLib exParams exFilterIn (Or.inl rfl)⟩

/-! ## parseField -/

theorem parseField_without_delimiter (f : String) (hf : ':' ∉ f.data) :
    parseField f = (f, OperatorEq) := by
  unfold parseField
  rw [show operatorDelimiter = ':' from rfl, Split_of_not_mem f ':' hf]

theorem parseField_with_token (f t : String) (hf : ':' ∉ f.data) (ht : ':' ∉ t.data) :
    parseField (f ++ ":" ++ t) =
      match knownOperators t with
      | some op => (f, op)
      | none => ("", OperatorEq) := by
  unfold parseField
  have hs : strings.Split (f ++ ":" ++ t) operatorDelimiter = [f, t] := by
    have := Split_append_sep f t ':' hf
    rw [Split_of_not_mem t ':' ht] at this
    exact this
  rw [hs]

/-- C8 on the code: an operator token that is not a known operator makes
`parseField` return the empty field name with eq; `"name:foo"` gives
`("", eq)`, not `("name", eq)`. -/
theorem parseField_unknown_token_drops_field :
    parseField "name:foo" = ("", OperatorEq) ∧ parseField "name:foo" ≠ ("name", OperatorEq) ∧
      parseField "name:" = ("", OperatorEq) := by
  decide

/-! ## Validation -/

theorem Includes.isAllowedIncludes_iff (self : Includes) (field : String) :
    self.isAllowedIncludes field = true ↔ field ∈ self.allowedIncludes := by
  unfold Includes.isAllowedIncludes
  rw [List.any_eq_true]
  constructor
  · rintro ⟨v, hv, he⟩
    rw [beq_iff_eq] at he
    exact he ▸ hv
  · intro h
    exact ⟨field, h, by simp⟩

theorem Includes.not_isAllowedIncludes_eq (self : Includes) (field : String) :
    (!self.isAllowedIncludes field) = decide (field ∉ self.allowedIncludes) := by
  by_cases h : field ∈ self.allowedIncludes
  · simp [h, (self.isAllowedIncludes_iff field).mpr h]
  · have hf : self.isAllowedIncludes field = false := by
      cases hb : self.isAllowedIncludes field with
      | false => rfl
      | true => exact absurd ((self.isAllowedIncludes_iff field).mp hb) h
    simp [h, hf]

theorem Includes.validate_fold (l : List String) (s : Includes) :
    l.foldl (fun s v => if !s.isAllowedIncludes v then s.addAllowingError v else s) s =
      { s with
        errors := s.errors ++
          (l.filter (fun v => !s.isAllowedIncludes v)).map
            (fun v => errorsNew ("Including of " ++ v ++ " in not allowed")) } := by
  induction l generalizing s with
  | nil => simp
  | cons v vs ih =>
    rw [List.foldl_cons]
    cases hb : s.isAllowedIncludes v with
    | true =>
      simp only [Bool.not_true, Bool.false_eq_true, if_false]
      rw [ih s]
      simp [List.filter_cons, hb]
    | false =>
      simp only [Bool.not_false, if_true]
      rw [ih (s.addAllowingError v)]
      have hf : (fun w => !(s.addAllowingError v).isAllowedIncludes w) =
          (fun w => !s.isAllowedIncludes w) := rfl
      rw [hf]
      simp [List.filter_cons, hb, Includes.addAllowingError]

theorem Includes_Validate_errors (self : Includes) :
    self.Validate.1.2 = self.errors ++
      (self.passedIncludes.filter (fun v => decide (v ∉ self.allowedIncludes))).map
        (fun v => errorsNew ("Including of " ++ v ++ " in not allowed")) := by
  unfold Includes.Validate
  simp only [Includes.validate_fold]
  congr 2
  apply List.filter_congr
  intro v _
  exact self.not_isAllowedIncludes_eq v

theorem Includes_Validate_ok (self : Includes) :
    self.Validate.1.1 = (self.Validate.1.2.length == 0) := rfl

theorem Includes_Validate_state (self : Includes) :
    self.Validate.2 = { self with errors := self.Validate.1.2 } := by
  unfold Includes.Validate
  simp only [Includes.validate_fold]

theorem Contains_middle (a t b : String) : Contains (a ++ t ++ b) t := ⟨a, b, rfl⟩

/-- C2: on an Includes with no recorded errors, `Validate` returns one error
per requested token that is not in the allow-list, in request order, each
message containing its token, and `ok = false` exactly when some requested
token is not allowed. -/
theorem Includes_Validate_spec (self : Includes) (h : self.errors = []) :
    self.Validate.1.2 =
        (self.passedIncludes.filter (fun v => decide (v ∉ self.allowedIncludes))).map
          (fun v => errorsNew ("Including of " ++ v ++ " in not allowed")) ∧
      (∀ v : String,
        Contains (errorsNew ("Including of " ++ v ++ " in not allowed")).Error v) ∧
      self.Validate.1.2.length =
        self.passedIncludes.countP (fun v => decide (v ∉ self.allowedIncludes)) ∧
      (self.Validate.1.1 = false ↔
        ∃ v ∈ self.passedIncludes, v ∉ self.allowedIncludes) := by
  have he := Includes_Validate_errors self
  rw [h, List.nil_append] at he
  refine ⟨he, fun v => Contains_middle _ v _, ?_, ?_⟩
  · rw [he, List.length_map, List.countP_eq_length_filter]
  · rw [Includes_Validate_ok self, he, List.length_map]
    constructor
    · intro hl
      have hne : (self.passedIncludes.filter
          (fun v => decide (v ∉ self.allowedIncludes))) ≠ [] := by
        intro e
        rw [e] at hl
        simp at hl
      obtain ⟨v, hv⟩ := List.exists_mem_of_ne_nil _ hne
      rw [List.mem_filter] at hv
      exact ⟨v, hv.1, by simpa using hv.2⟩
    · rintro ⟨v, hv, hna⟩
      have hm : v ∈ self.passedIncludes.filter
          (fun v => decide (v ∉ self.allowedIncludes)) :=
        List.mem_filter.mpr ⟨hv, by simpa using hna⟩
      have hpos : 0 < (self.passedIncludes.filter
          (fun v => decide (v ∉ self.allowedIncludes))).length :=
        List.length_pos_of_mem hm
      cases hlen : (self.passedIncludes.filter
          (fun v => decide (v ∉ self.allowedIncludes))).length with
      | zero => omega
      | succ n => rfl

theorem Includes_Validate_spec_witness :
    exIncludes.errors = [] ∧
      exIncludes.Validate.1 = (false, [errorsNew "Including of comments in not allowed"]) ∧
      Contains (errorsNew "Including of comments in not allowed").Error "comments" :=
  ⟨rfl, by decide, (Includes_Validate_spec exIncludes rfl).2.1 "comments"⟩

theorem ListParams.addError_fold {α : Type} (l : List α) (cond : ListParams → α → Bool)
    (text : α → String) (p : ListParams)
    (hinv : ∀ (q : ListParams) (t : String), cond (q.addError t) = cond q) :
    l.foldl (fun p v => if cond p v then p.addError (text v) else p) p =
      { p with
        errors := p.errors ++ (l.filter (cond p)).map (fun v => NewErrorString (text v)) } := by
  induction l generalizing p with
  | nil => simp
  | cons v vs ih =>
    rw [List.foldl_cons]
    cases hb : cond p v with
    | true =>
      simp only [if_true]
      rw [ih (p.addError (text v)), hinv]
      simp [List.filter_cons, hb, ListParams.addError]
    | false =>
      simp only [Bool.false_eq_true, if_false]
      rw [ih p]
      simp [List.filter_cons, hb]

theorem ListParams.addErrors_eq (p : ListParams) (errors : List GoError) :
    p.addErrors errors = { p with errors := p.errors ++ errors } := by
  unfold ListParams.addErrors
  induction errors generalizing p with
  | nil => simp
  | cons e es ih =>
    rw [List.foldl_cons, ih]
    simp [NewErrorString, GoError.Error]

theorem ListParams.not_isAllowedSorting_eq (params : ListParams) (field : String) :
    (!params.isAllowedSorting field) = decide (field ∉ params.allowedListParams.Sortings) := by
  unfold ListParams.isAllowedSorting
  by_cases h : field ∈ params.allowedListParams.Sortings
  · have : (params.allowedListParams.Sortings.any fun v => v == field) = true :=
      List.any_eq_true.mpr ⟨field, h, by simp⟩
    simp [h, this]
  · have : (params.allowedListParams.Sortings.any fun v => v == field) = false := by
      rw [List.any_eq_false]
      intro v hv he
      rw [beq_iff_eq] at he
      exact h (he ▸ hv)
    simp [h, this]

theorem ListParams.not_isAllowedFilter_eq (params : ListParams) (pair : FieldOperatorPair) :
    (!params.isAllowedFilter pair.Field pair.Operator) =
      decide (pair ∉ params.allowedListParams.Filters) := by
  unfold ListParams.isAllowedFilter
  by_cases h : pair ∈ params.allowedListParams.Filters
  · have : (params.allowedListParams.Filters.any
        fun v => v.Field == pair.Field && v.Operator == pair.Operator) = true :=
      List.any_eq_true.mpr ⟨pair, h, by simp⟩
    simp [h, this]
  · have : (params.allowedListParams.Filters.any
        fun v => v.Field == pair.Field && v.Operator == pair.Operator) = false := by
      rw [List.any_eq_false]
      intro v hv he
      rw [Bool.and_eq_true, beq_iff_eq, beq_iff_eq] at he
      apply h
      have hvp : v = pair := by
        cases v; cases pair
        simp only at he
        simp [he.1, he.2]
      exact hvp ▸ hv
    simp [h, this]

theorem Includes_Validate_if_ok (self : Includes) :
    (if self.Validate.1.1 then [] else self.Validate.1.2) = self.Validate.1.2 := by
  by_cases hb : self.Validate.1.1 = true
  · rw [if_pos hb]
    have hok := Includes_Validate_ok self
    rw [hb] at hok
    have hl : self.Validate.1.2.length = 0 := by simpa using hok.symm
    exact (List.length_eq_zero.mp hl).symm
  · rw [if_neg hb]

/-- On a ListParams whose `Includes` are `nil`, `Validate` panics. -/
theorem ListParams_Validate_of_nil (params : ListParams) (h : params.Includes = none) :
    params.Validate = none := by
  have hs := ListParams.addError_fold params.Sortings
    (fun p v => !p.isAllowedSorting v.Field)
    (fun v => "Sorting by " ++ v.Field ++ " in not allowed") params (fun _ _ => rfl)
  have hf := fun p => ListParams.addError_fold params.Filters
    (fun p v => !p.isAllowedFilter v.Field v.Operator)
    (fun v => "Filter " ++ v.Field ++ " is not allowed with operator " ++ v.Operator) p
    (fun _ _ => rfl)
  unfold ListParams.Validate
  simp only [ListParams.addSortingError, ListParams.addFilterError]
  rw [hs]
  simp only []
  rw [hf]
  simp only [h]

/-- What `Validate` returns, and the receiver it leaves, on a ListParams whose
`Includes` point to `includes`, for any starting state. -/
theorem ListParams_Validate_of_Includes (params : ListParams) (includes : Includes)
    (h : params.Includes = some includes) :
    params.Validate =
      some
        (((params.errors ++ params.recordedErrors includes).length == 0,
            params.errors ++ params.recordedErrors includes),
          { params with
            errors := params.errors ++ params.recordedErrors includes
            Includes := some includes.Validate.2 }) := by
  have hs := ListParams.addError_fold params.Sortings
    (fun p v => !p.isAllowedSorting v.Field)
    (fun v => "Sorting by " ++ v.Field ++ " in not allowed") params (fun _ _ => rfl)
  have hf := fun p => ListParams.addError_fold params.Filters
    (fun p v => !p.isAllowedFilter v.Field v.Operator)
    (fun v => "Filter " ++ v.Field ++ " is not allowed with operator " ++ v.Operator) p
    (fun _ _ => rfl)
  have hsf : (fun v : SortingListParameter => !params.isAllowedSorting v.Field) =
      (fun v => decide (v.Field ∉ params.allowedListParams.Sortings)) := by
    funext v; exact params.not_isAllowedSorting_eq v.Field
  have hff : (fun v : FilterListParameter => !params.isAllowedFilter v.Field v.Operator) =
      (fun v => decide (v.toFieldOperatorPair ∉ params.allowedListParams.Filters)) := by
    funext v; exact params.not_isAllowedFilter_eq v.toFieldOperatorPair
  have hif := Includes_Validate_if_ok includes
  unfold ListParams.Validate ListParams.recordedErrors
  simp only [ListParams.addSortingError, ListParams.addFilterError]
  rw [hs]
  simp only []
  rw [hf]
  simp only [h, ListParams.addErrors_eq, ListParams.addPaginationError, ListParams.addError,
    DefaultPageNumber, DefaultPageSize]
  rw [← hsf, ← hff, ← hif]
  by_cases hok : includes.Validate.1.1 = true <;>
    by_cases hpg : params.allowedListParams.Pagination = true <;>
    by_cases h1 : params.Pagination.PageNumber = 1 <;>
    by_cases h2 : params.Pagination.PageSize = 20 <;>
    by_cases h3 : params.Pagination.PageSize = 0 <;>
    simp [h1, h2, h3, hok, hpg, ListParams.isAllowedSorting, ListParams.isAllowedFilter]

/-- On a ListParams with an `Includes` and no recorded errors (its own list and
the list of its Includes are empty), `Validate` returns one error for each
Sorting whose field is not in the sorting allow-list, then one for each Filter
whose (field, operator) pair is not in the filter allow-list, then one for
each requested include that is not in the include allow-list, then one more if
pagination is not allowed and (PageNumber ≠ 1 or PageSize is neither 20 nor 0),
and nothing else; the boolean is true exactly when that list is empty. -/
theorem ListParams_Validate_spec (params : ListParams) (includes : Includes)
    (h1 : params.errors = []) (hinc : params.Includes = some includes)
    (h2 : includes.errors = []) :
    ∃ (ok : Bool) (errors : List GoError) (after : ListParams),
      params.Validate = some ((ok, errors), after) ∧
      errors =
        (params.Sortings.filter
            (fun v => decide (v.Field ∉ params.allowedListParams.Sortings))).map
          (fun v => NewErrorString ("Sorting by " ++ v.Field ++ " in not allowed")) ++
        (params.Filters.filter
            (fun v => decide (v.toFieldOperatorPair ∉ params.allowedListParams.Filters))).map
          (fun v => NewErrorString
            ("Filter " ++ v.Field ++ " is not allowed with operator " ++ v.Operator)) ++
        (includes.passedIncludes.filter
            (fun v => decide (v ∉ includes.allowedIncludes))).map
          (fun v => NewErrorString ("Including of " ++ v ++ " in not allowed")) ++
        (if params.allowedListParams.Pagination = false ∧
            (params.Pagination.PageNumber ≠ 1 ∨
              (params.Pagination.PageSize ≠ 20 ∧ params.Pagination.PageSize ≠ 0)) then
          [NewErrorString "Pagination is not allowed"]
        else []) ∧
      (ok = true ↔ errors = []) := by
  refine ⟨_, _, _, ListParams_Validate_of_Includes params includes hinc, ?_, ?_⟩
  · have he := Includes_Validate_errors includes
    rw [h2, List.nil_append] at he
    rw [h1, List.nil_append, ListParams.recordedErrors, he]
    rfl
  · simp [List.length_eq_zero]

theorem ListParams_Validate_spec_witness :
    exParamsValidate.errors = [] ∧ exParamsValidate.Includes = some exIncludes ∧
      exIncludes.errors = [] ∧
      exParamsValidate.Validate.map (fun r => r.1) =
        some (false,
          [NewErrorString "Filter age is not allowed with operator like",
            NewErrorString "Including of comments in not allowed",
            NewErrorString "Pagination is not allowed"]) :=
  ⟨rfl, rfl, rfl, by
    obtain ⟨ok, errors, after, hv, he, hok⟩ :=
      ListParams_Validate_spec exParamsValidate exIncludes rfl rfl rfl
    have herr : errors =
        [NewErrorString "Filter age is not allowed with operator like",
          NewErrorString "Including of comments in not allowed",
          NewErrorString "Pagination is not allowed"] := by
      rw [he]
      decide
    have hfalse : ok = false := by
      cases ok with
      | false => rfl
      | true => rw [hok.mp rfl] at herr; exact absurd herr (by simp)
    rw [hv, hfalse, herr]
    rfl⟩

/-- C1 on the code: from the query `sort=%zz` `NewListParamsFromQuery` returns a
ListParams with no recorded error whose `Includes` are `nil`, and `Validate`
on it panics instead of returning the list of errors.  The error of
`url.PathUnescape` on the query is only logged, the empty string it returns
parses, and `NewIncludes` on the query as given returns `nil`. -/
theorem Validate_panics_after_bad_escape :
    NewListParamsFromQuery exUrlEscape "sort=%zz" exObjectType = some exParamsNoIncludes ∧
      exParamsNoIncludes.errors = [] ∧
      exParamsNoIncludes.Includes = none ∧
      exParamsNoIncludes.Validate = none :=
  ⟨rfl, rfl, rfl, rfl⟩

/-! ## Sorting -/

theorem sortingParameterOf_of_ne_empty (field : String) (h : field ≠ "") :
    sortingParameterOf field =
      some (if field.data.head? = some '-' then
          { Field := String.mk field.data.tail, Direction := DescDirection }
        else { Field := field, Direction := AscDirection }) := by
  unfold sortingParameterOf
  cases hd : field.data with
  | nil =>
    exfalso
    apply h
    have : field = String.mk field.data := rfl
    rw [this, hd]
  | cons c cs =>
    by_cases hc : c = '-'
    · simp [hc]
    · simp [hc]

theorem sortingTokens_fold (tokens : List String) (acc : List SortingListParameter)
    (h : ∀ token ∈ tokens, token ≠ "") :
    tokens.foldlM
        (fun list field => (sortingParameterOf field).map (fun p => list ++ [p])) acc =
      some (acc ++ tokens.map (fun token =>
        if token.data.head? = some '-' then
          { Field := String.mk token.data.tail, Direction := DescDirection }
        else { Field := token, Direction := AscDirection })) := by
  induction tokens generalizing acc with
  | nil => simp
  | cons t ts ih =>
    have ht : t ≠ "" := h t (by simp)
    have hts : ∀ token ∈ ts, token ≠ "" := fun token hm => h token (by simp [hm])
    rw [List.foldlM_cons, sortingParameterOf_of_ne_empty t ht]
    simp only [Option.map_some', Option.bind_eq_bind, Option.some_bind]
    rw [ih _ hts]
    simp

theorem sortingValues_fold (queryParams : List String) (acc : List SortingListParameter)
    (h : ∀ q ∈ queryParams, ∀ token ∈ strings.Split q queryParamDelimiter, token ≠ "") :
    queryParams.foldlM
        (fun list sortingQueryParam =>
          (strings.Split sortingQueryParam queryParamDelimiter).foldlM
            (fun list field => (sortingParameterOf field).map (fun p => list ++ [p])) list)
        acc =
      some (acc ++
        (queryParams.flatMap (fun q => strings.Split q queryParamDelimiter)).map (fun token =>
          if token.data.head? = some '-' then
            { Field := String.mk token.data.tail, Direction := DescDirection }
          else { Field := token, Direction := AscDirection })) := by
  induction queryParams generalizing acc with
  | nil => simp
  | cons q qs ih =>
    have hq := h q (by simp)
    have hqs : ∀ q ∈ qs, ∀ token ∈ strings.Split q queryParamDelimiter, token ≠ "" :=
      fun q hm => h q (by simp [hm])
    rw [List.foldlM_cons, sortingTokens_fold _ acc hq]
    simp only [Option.bind_eq_bind, Option.some_bind]
    rw [ih _ hqs]
    simp

/-- C9: when every comma-separated token of every `sort` value is non-empty,
`setSortingParams` sets Sortings to one entry per token, in the order of the
values and then of the tokens within a value; a token starting with `-` gives
(the token without its first character, DESC), any other token (token, ASC). -/
theorem setSortingParams_spec (params : ListParams) (values : Values)
    (h : ∀ q ∈ Values.get values "sort", ∀ token ∈ strings.Split q ',', token ≠ "") :
    params.setSortingParams values =
      some { params with
        Sortings :=
          ((Values.get values "sort").flatMap (fun q => strings.Split q ',')).map (fun token =>
            if token.data.head? = some '-' then
              { Field := String.mk token.data.tail, Direction := "DESC" }
            else { Field := token, Direction := "ASC" }) } := by
  unfold ListParams.setSortingParams
  simp only []
  rw [sortingValues_fold _ [] h]
  rfl

theorem setSortingParams_spec_witness :
    (∀ q ∈ Values.get [("sort", ["-createdAt"])] "sort",
        ∀ token ∈ strings.Split q ',', token ≠ "") ∧
      (exParams.setSortingParams [("sort", ["-createdAt"])]).map (fun p => p.Sortings) =
        some [{ Field := "createdAt", Direction := "DESC" }] :=
  ⟨by decide, by rw [setSortingParams_spec exParams _ (by decide)]; rfl⟩

theorem qualifiedName_eq (lib : Lib) (params : ListParams) (transformed : String) :
    (if (strings.Split transformed sqlTableFieldDelimiter).length == 1 then
        params.addTablePrefix lib transformed
      else transformed) =
      if '.' ∈ transformed.data then transformed
      else
        (match params.ObjectType.TableName with
          | some result => result
          | none => lib.ToSnake (lib.Plural params.ObjectType.Name)) ++ "." ++ transformed := by
  by_cases hd : '.' ∈ transformed.data
  · have hl : ¬ (strings.Split transformed sqlTableFieldDelimiter).length = 1 := fun e =>
      (Split_length_eq_one_iff transformed sqlTableFieldDelimiter).mp e hd
    simp only [beq_iff_eq, if_neg hl, if_pos hd]
  · have hl : (strings.Split transformed sqlTableFieldDelimiter).length = 1 :=
      (Split_length_eq_one_iff transformed sqlTableFieldDelimiter).mpr hd
    simp only [beq_iff_eq, if_pos hl, if_neg hd, addTablePrefix_eq]

theorem orderByParts_fold (f : SortingListParameter → String × Option GoError)
    (l : List SortingListParameter) (acc : List String) :
    l.foldl
        (fun orderByParts sorting =>
          match f sorting with
          | (_, some _) => orderByParts
          | (orderPart, none) => orderByParts ++ [orderPart])
        acc =
      acc ++ l.filterMap (fun sorting =>
        match (f sorting).2 with
        | some _ => none
        | none => some (f sorting).1) := by
  induction l generalizing acc with
  | nil => simp
  | cons s ss ih =>
    rw [List.foldl_cons, ih]
    rcases hf : f s with ⟨part, err⟩
    cases err with
    | none => simp [List.filterMap_cons, hf]
    | some e => simp [List.filterMap_cons, hf]

/-- C10: `GetOrderByString` is the `","`-join, in Sortings order, of one
fragment per sorting: with a custom sorting function registered for the field,
what the first registered one returns when it returns no error, and nothing
when it returns an error; without one, `<name> <DIRECTION>` where `<name>` is
the transformed field name, prefixed with `<table>.` only when it has no `"."`. -/
theorem GetOrderByString_spec (lib : Lib) (cb : Callbacks) (params : ListParams) :
    params.GetOrderByString lib cb =
      strings.Join
        (params.Sortings.filterMap (fun sorting =>
          match params.customSortings.find? (fun c => c.Field == sorting.Field) with
          | some custom =>
            match (cb.sortingFunc custom.Func sorting.Direction params).2 with
            | some _ => none
            | none => some (cb.sortingFunc custom.Func sorting.Direction params).1
          | none =>
            some
              ((if '.' ∈ (params.transformName lib sorting.Field).data then
                  params.transformName lib sorting.Field
                else
                  (match params.ObjectType.TableName with
                    | some result => result
                    | none => lib.ToSnake (lib.Plural params.ObjectType.Name)) ++ "." ++
                    params.transformName lib sorting.Field) ++
                " " ++ sorting.Direction)))
        "," := by
  unfold ListParams.GetOrderByString
  simp only []
  rw [orderByParts_fold, List.nil_append]
  congr 1
  apply List.filterMap_congr
  intro sorting _
  unfold ListParams.getOrderByString ListParams.getCustomSorting
  cases params.customSortings.find? (fun c => c.Field == sorting.Field) with
  | some custom => rfl
  | none =>
    simp only []
    rw [qualifiedName_eq]

theorem GetOrderByString_spec_witness :
    exParamsSort.GetOrderByString exLib exCallbacks = "users.created_at DESC" ∧
      exParamsCustomSort.GetOrderByString exLib exCallbacks = "rank,users.created_at DESC" :=
  ⟨by rw [GetOrderByString_spec]; decide, by rw [GetOrderByString_spec]; decide⟩

/-! ## WHERE condition -/

/-- C6 on the code: a like filter with zero values is not omitted.  Its empty
fragment is joined like any other, so with an eq filter after it the SQL is
`" AND users.name = ?"`, with it last the SQL is `"users.name = ? AND "`,
while the eq filter alone renders `"users.name = ?"`. -/
theorem GetWhereCondition_empty_like_not_omitted :
    exParamsLike.GetWhereCondition exLib exCallbacks =
        some (" AND users.name = ?", [Value.slice [], Value.slice [Value.str "bob"]]) ∧
      exParamsLikeLast.GetWhereCondition exLib exCallbacks =
        some ("users.name = ? AND ", [Value.slice [Value.str "bob"], Value.slice []]) ∧
      exParamsOnlyEq.GetWhereCondition exLib exCallbacks =
        some ("users.name = ?", [Value.slice [Value.str "bob"]]) := by
  decide

/-- The loop of `GetWhereCondition` appends one fragment per filter and the
bind arguments of each, as long as no custom function returns `nil`. -/
theorem whereLoop_of_results_not_nil (lib : Lib) (cb : Callbacks) (params : ListParams)
    (filters : List FilterListParameter) (filterStrs : List String) (arguments : List Value)
    (h : ∀ filter ∈ filters, ∀ custom : customFilter,
      params.customFilters.find? (fun c => c.Field == filter.Field) = some custom →
        (cb.filterFunc custom.Func filter.Values params).2 ≠ Value.nil) :
    whereLoop lib cb params filters filterStrs arguments =
      some
        (filterStrs ++ filters.map (fun filter =>
            match params.customFilters.find? (fun c => c.Field == filter.Field) with
            | some custom => (cb.filterFunc custom.Func filter.Values params).1
            | none => (params.GetConditionPartFromUsualFilter lib filter).1),
          arguments ++ filters.flatMap (fun filter =>
            match params.customFilters.find? (fun c => c.Field == filter.Field) with
            | some custom =>
              match (cb.filterFunc custom.Func filter.Values params).2 with
              | Value.slice args => args
              | value => [value]
            | none => [(params.GetConditionPartFromUsualFilter lib filter).2])) := by
  induction filters generalizing filterStrs arguments with
  | nil => simp [whereLoop]
  | cons filter rest ih =>
    have hrest : ∀ filter ∈ rest, ∀ custom : customFilter,
        params.customFilters.find? (fun c => c.Field == filter.Field) = some custom →
          (cb.filterFunc custom.Func filter.Values params).2 ≠ Value.nil :=
      fun f hm => h f (by simp [hm])
    have hhead := h filter (by simp)
    unfold whereLoop
    unfold ListParams.getCustomFilter ListParams.getConditionPartFromCustomFilter
    cases hc : params.customFilters.find? (fun c => c.Field == filter.Field) with
    | none =>
      simp only []
      rw [ih _ _ hrest]
      simp [hc]
    | some custom =>
      have hnn := hhead custom hc
      simp only []
      cases hv : (cb.filterFunc custom.Func filter.Values params).2 with
      | nil => exact absurd hv hnn
      | str s =>
        simp only []
        rw [ih _ _ hrest]
        simp [hc, hv]
      | int i =>
        simp only []
        rw [ih _ _ hrest]
        simp [hc, hv]
      | slice xs =>
        simp only []
        rw [ih _ _ hrest]
        simp [hc, hv]

/-- When no custom function that is called returns the `nil` interface:
`GetWhereCondition` joins one fragment per filter with `" AND "`; for a filter
whose field has a registered custom filter the fragment is the string returned
by the first registered function for that field on the filter's values, and
its bind arguments are the elements of the returned slice, or the single
returned value; the operator table is used for the other filters only. -/
theorem GetWhereCondition_of_results_not_nil (lib : Lib) (cb : Callbacks)
    (params : ListParams)
    (h : ∀ filter ∈ params.Filters, ∀ custom : customFilter,
      params.customFilters.find? (fun c => c.Field == filter.Field) = some custom →
        (cb.filterFunc custom.Func filter.Values params).2 ≠ Value.nil) :
    params.GetWhereCondition lib cb =
      some
        (strings.Join
            (params.Filters.map (fun filter =>
              match params.customFilters.find? (fun c => c.Field == filter.Field) with
              | some custom => (cb.filterFunc custom.Func filter.Values params).1
              | none => (params.GetConditionPartFromUsualFilter lib filter).1))
            " AND ",
          params.Filters.flatMap (fun filter =>
            match params.customFilters.find? (fun c => c.Field == filter.Field) with
            | some custom =>
              match (cb.filterFunc custom.Func filter.Values params).2 with
              | Value.slice args => args
              | value => [value]
            | none => [(params.GetConditionPartFromUsualFilter lib filter).2])) := by
  unfold ListParams.GetWhereCondition
  rw [whereLoop_of_results_not_nil lib cb params params.Filters [] [] h]
  simp

/-- A custom function returning the `nil` interface makes the loop panic. -/
theorem whereLoop_nil_result (lib : Lib) (cb : Callbacks) (params : ListParams)
    (filter : FilterListParameter) (rest : List FilterListParameter)
    (filterStrs : List String) (arguments : List Value) (custom : customFilter)
    (hc : params.customFilters.find? (fun c => c.Field == filter.Field) = some custom)
    (hv : (cb.filterFunc custom.Func filter.Values params).2 = Value.nil) :
    whereLoop lib cb params (filter :: rest) filterStrs arguments = none := by
  unfold whereLoop
  unfold ListParams.getCustomFilter ListParams.getConditionPartFromCustomFilter
  rw [hc]
  simp only []
  rw [hv]

/-- C7 on the code: with a custom filter whose function returns `nil` for its
bind values (a condition without placeholders), `GetWhereCondition` does not
return: `reflect.TypeOf(nil).Kind()` panics.  With custom functions returning
values the custom fragment and arguments replace the default rendering. -/
theorem GetWhereCondition_custom_nil_panics :
    exParamsNilFilter.GetWhereCondition exLib exCallbacks = none ∧
      exCallbacks.filterFunc 0 ["true"] exParamsNilFilter = ("deleted_at IS NULL", Value.nil) ∧
      exParamsCustomFilter.GetWhereCondition exLib exCallbacks =
        some ("(a = ? OR b = ?) AND users.name = ?",
          [Value.str "x", Value.str "y", Value.slice [Value.str "bob"]]) := by
  decide

/-! ## Name transformation -/

theorem transformNameLoop_eq (lib : Lib) (n : String) (fields : List StructField) :
    transformNameLoop lib n fields =
      match fields.find? (fun d => d.TagGet "json" == n) with
      | some d =>
        match d.TagLookup "db" with
        | some column => column
        | none => lib.ToSnake d.Name
      | none => lib.ToSnake n := by
  induction fields with
  | nil => rfl
  | cons field rest ih =>
    unfold transformNameLoop
    by_cases h : (field.TagGet "json" == n) = true
    · rw [if_pos h]
      simp only [List.find?_cons, h]
    · rw [if_neg h, ih]
      simp only [List.find?_cons, h]

/-- C11: `transformName` is a total function of the wire name `n`: with `d` the
first field descriptor of the record type whose wire tag (`json`) equals `n`,
it is the storage-column override (`db`) of `d` when `d` has one and the snake
case of the in-memory name of `d` otherwise; when no descriptor has wire tag
`n` it is the snake case of `n`. -/
theorem transformName_spec (lib : Lib) (params : ListParams) (n : String) :
    params.transformName lib n =
      match params.ObjectType.Fields.find? (fun d => d.TagGet "json" == n) with
      | some d =>
        match d.TagLookup "db" with
        | some column => column
        | none => lib.ToSnake d.Name
      | none => lib.ToSnake n :=
  transformNameLoop_eq lib n params.ObjectType.Fields

theorem transformName_spec_witness :
    ({ exParams with ObjectType := exObjectTypeTagged } : ListParams).transformName exLib "id" =
        "user_id" ∧
      ({ exParams with ObjectType := exObjectTypeTagged } : ListParams).transformName exLib
        "created" = "created_at" ∧
      ({ exParams with ObjectType := exObjectTypeTagged } : ListParams).transformName exLib
        "createdAt" = "created_at" := by
  refine ⟨?_, ?_, ?_⟩ <;> rw [transformName_spec] <;> decide

/-! ## Pagination -/

theorem setPagination_of_absent (params : ListParams) (values : Values)
    (hn : values.lookup "page[number]" = none) (hs : values.lookup "page[size]" = none) :
    params.setPagination values = { params with Pagination := ⟨1, 20⟩ } := by
  unfold ListParams.setPagination Values.get
  rw [hn, hs]
  rfl

theorem GetOffset_of_PageNumber_one (params : ListParams)
    (h : params.Pagination.PageNumber = 1) : params.GetOffset = 0 := by
  unfold ListParams.GetOffset
  rw [h]
  simp

/-- What `NewListParamsFromQuery` returns for a query whose unescaped form
parses to `values`. -/
theorem NewListParamsFromQuery_of_parsed (url : NetUrl) (query : String)
    (objectType : ObjectType) (values : Values)
    (hparse : url.ParseQuery (url.PathUnescape query).1 = (values, none)) :
    NewListParamsFromQuery url query objectType =
      ((NewListParams objectType).setSortingParams values).bind fun p1 =>
        (p1.setFilters values).bind fun p2 =>
          some (({ p2 with Includes := NewIncludes url query } : ListParams).setPagination
            values) := by
  unfold NewListParamsFromQuery
  simp only [hparse]
  rfl

/-- C12: for a query that parses and has neither a `page[number]` nor a
`page[size]` key, `setPagination` sets Pagination to {1, 20}; every ListParams
`NewListParamsFromQuery` builds has Pagination {1, 20}, limit 20 and offset 0;
and it builds one, with the `Includes` that `NewIncludes` returns (`nil`
included), whenever the sort and filter steps return. -/
theorem NewListParamsFromQuery_default_pagination (url : NetUrl) (query : String)
    (objectType : ObjectType) (values : Values)
    (hparse : url.ParseQuery (url.PathUnescape query).1 = (values, none))
    (hn : values.lookup "page[number]" = none) (hs : values.lookup "page[size]" = none) :
    (∀ params : ListParams, (params.setPagination values).Pagination = ⟨1, 20⟩) ∧
      (∀ p : ListParams, NewListParamsFromQuery url query objectType = some p →
        p.Pagination = ⟨1, 20⟩ ∧ p.GetLimit = 20 ∧ p.GetOffset = 0) ∧
      (∀ p1 p2 : ListParams,
        (NewListParams objectType).setSortingParams values = some p1 →
        p1.setFilters values = some p2 →
        ∃ p : ListParams, NewListParamsFromQuery url query objectType = some p ∧
          p.Includes = NewIncludes url query) := by
  have hset : ∀ params : ListParams, (params.setPagination values).Pagination = ⟨1, 20⟩ := by
    intro params
    rw [setPagination_of_absent params values hn hs]
  have hq := NewListParamsFromQuery_of_parsed url query objectType values hparse
  refine ⟨hset, ?_, ?_⟩
  · intro p hp
    rw [hq] at hp
    cases h1 : (NewListParams objectType).setSortingParams values with
    | none => rw [h1] at hp; simp at hp
    | some p1 =>
      rw [h1] at hp
      simp only [Option.some_bind] at hp
      cases h2 : p1.setFilters values with
      | none => rw [h2] at hp; simp at hp
      | some p2 =>
        rw [h2] at hp
        simp only [Option.some_bind, Option.some.injEq] at hp
        have hpag : p.Pagination = ⟨1, 20⟩ := by rw [← hp]; exact hset _
        refine ⟨hpag, ?_, ?_⟩
        · unfold ListParams.GetLimit; rw [hpag]
        · exact GetOffset_of_PageNumber_one p (by rw [hpag])
  · intro p1 p2 h1 h2
    rw [hq, h1]
    simp only [Option.some_bind]
    rw [h2]
    exact ⟨_, rfl, rfl⟩

theorem NewListParamsFromQuery_default_pagination_witness :
    exUrl.ParseQuery (exUrl.PathUnescape "").1 = ([], none) ∧
      NewListParamsFromQuery exUrl "" exObjectType = some exParamsBuilt ∧
      exParamsBuilt.Pagination = ⟨1, 20⟩ ∧ exParamsBuilt.GetLimit = 20 ∧
      exParamsBuilt.GetOffset = 0 ∧
      exUrlEscape.ParseQuery (exUrlEscape.PathUnescape "sort=%zz").1 = ([], none) ∧
      NewListParamsFromQuery exUrlEscape "sort=%zz" exObjectType = some exParamsNoIncludes ∧
      exParamsNoIncludes.Pagination = ⟨1, 20⟩ ∧ exParamsNoIncludes.GetLimit = 20 ∧
      exParamsNoIncludes.GetOffset = 0 :=
  have hempty :=
    (NewListParamsFromQuery_default_pagination exUrl "" exObjectType [] rfl rfl rfl).2.1
      exParamsBuilt rfl
  have hescape :=
    (NewListParamsFromQuery_default_pagination exUrlEscape "sort=%zz" exObjectType [] rfl rfl
      rfl).2.1 exParamsNoIncludes rfl
  ⟨rfl, rfl, hempty.1, hempty.2.1, hempty.2.2, rfl, rfl, hescape.1, hescape.2.1, hescape.2.2⟩

/-- C13 on the code: a first `page[number]` or `page[size]` value that is not a
decimal number gives 0, not the default 1 or 20 (a number above `2^32 - 1`
gives `2^32 - 1`); no error is recorded; absent values do give {1, 20}. -/
theorem setPagination_malformed_gives_zero :
    (exParams.setPagination [("page[number]", ["abc"]), ("page[size]", ["1x"])]).Pagination =
        ⟨0, 0⟩ ∧
      (exParams.setPagination [("page[number]", [""]), ("page[size]", ["-5"])]).Pagination =
        ⟨0, 0⟩ ∧
      (exParams.setPagination
          [("page[number]", ["4294967296"]), ("page[size]", ["99999999999"])]).Pagination =
        ⟨4294967295, 4294967295⟩ ∧
      (exParams.setPagination [("page[number]", ["abc"]), ("page[size]", ["1x"])]).errors = [] ∧
      (exParams.setPagination []).Pagination = ⟨1, 20⟩ := by
  decide

/-- C14 as stated fails: the offset is computed in `uint32`.  Page 65537 of
size 65536 has offset 0, not 65536 × 65536; page 0 of size 20 has offset
4294967276. -/
theorem GetOffset_wraps_around :
    ({ exParams with Pagination := ⟨65537, 65536⟩ } : ListParams).GetOffset = 0 ∧
      65536 * (65537 - 1) = 4294967296 ∧
      ({ exParams with Pagination := ⟨0, 20⟩ } : ListParams).GetOffset = 4294967276 := by
  decide

/-- C14, amended: for a page number below `2^32` (a `uint32`), `GetOffset` is
PageSize × (PageNumber − 1) modulo `2^32`; it is PageSize × (PageNumber − 1)
itself when PageNumber ≥ 1 and that product is below `2^32`, in particular 0
when PageNumber = 1; `GetLimit` is PageSize. -/
theorem GetOffset_GetLimit_spec (params : ListParams)
    (hn : params.Pagination.PageNumber < 2 ^ 32) :
    ((params.GetOffset : Int) =
        ((params.Pagination.PageSize : Int) * ((params.Pagination.PageNumber : Int) - 1)) %
          2 ^ 32) ∧
      (1 ≤ params.Pagination.PageNumber →
        params.Pagination.PageSize * (params.Pagination.PageNumber - 1) < 2 ^ 32 →
        params.GetOffset = params.Pagination.PageSize * (params.Pagination.PageNumber - 1)) ∧
      (params.Pagination.PageNumber = 1 → params.GetOffset = 0) ∧
      params.GetLimit = params.Pagination.PageSize := by
  refine ⟨?_, ?_, GetOffset_of_PageNumber_one params, rfl⟩
  · unfold ListParams.GetOffset
    generalize params.Pagination.PageNumber = n at hn
    generalize params.Pagination.PageSize = s
    rcases Nat.eq_zero_or_pos n with h0 | hpos
    · subst h0
      have e1 : (0 + 2 ^ 32 - 1) % 2 ^ 32 = 4294967295 := by norm_num
      rw [e1]
      push_cast
      omega
    · have e1 : (n + 2 ^ 32 - 1) % 2 ^ 32 = n - 1 := by omega
      rw [e1]
      have e2 : ((n - 1 : Nat) : Int) = (n : Int) - 1 := by omega
      rw [Int.natCast_mod, Nat.cast_mul, e2]
      norm_num
  · intro h1 hlt
    unfold ListParams.GetOffset
    have e1 : (params.Pagination.PageNumber + 2 ^ 32 - 1) % 2 ^ 32 =
        params.Pagination.PageNumber - 1 := by omega
    rw [e1]
    exact Nat.mod_eq_of_lt hlt

theorem GetOffset_GetLimit_spec_witness :
    (3 : Nat) < 2 ^ 32 ∧
      ({ exParams with Pagination := ⟨3, 10⟩ } : ListParams).GetOffset = 20 ∧
      ({ exParams with Pagination := ⟨3, 10⟩ } : ListParams).GetLimit = 10 :=
  ⟨by norm_num,
    (GetOffset_GetLimit_spec ({ exParams with Pagination := ⟨3, 10⟩ } : ListParams)
      (by decide)).2.1 (by decide) (by decide),
    (GetOffset_GetLimit_spec ({ exParams with Pagination := ⟨3, 10⟩ } : ListParams)
      (by decide)).2.2.2⟩

/-- C15 on the code: `NewListParams()` leaves Pagination at its zero value,
PageNumber 0 and PageSize 0, where `NewListParamsFromQuery` on the empty query
sets the defaults 1 and 20; `Validate` on the value `NewListParams()` returns
reports `Pagination is not allowed`.  `NewListParamsFromQuery` on the query
`page[number]=0` leaves PageNumber 0 too. -/
theorem constructors_PageNumber_zero :
    (NewListParams exObjectType).Pagination = ⟨0, 0⟩ ∧
      (NewListParamsFromQuery exUrl "" exObjectType).map (fun p => p.Pagination) =
        some ⟨1, 20⟩ ∧
      (NewListParams exObjectType).Validate.map (fun r => r.1) =
        some (false, [⟨"Pagination is not allowed"⟩]) ∧
      (NewListParamsFromQuery exUrl "page[number]=0" exObjectType).map
        (fun p => p.Pagination.PageNumber) = some 0 := by
  decide

theorem NewListParamsFromQuery_Pagination (url : NetUrl) (query : String)
    (objectType : ObjectType) (values : Values) (p : ListParams)
    (hparse : url.ParseQuery (url.PathUnescape query).1 = (values, none))
    (hp : NewListParamsFromQuery url query objectType = some p) :
    p.Pagination = (p.setPagination values).Pagination := by
  rw [NewListParamsFromQuery_of_parsed url query objectType values hparse] at hp
  cases h1 : (NewListParams objectType).setSortingParams values with
  | none => rw [h1] at hp; simp at hp
  | some p1 =>
    rw [h1] at hp
    simp only [Option.some_bind] at hp
    cases h2 : p1.setFilters values with
    | none => rw [h2] at hp; simp at hp
    | some p2 =>
      rw [h2] at hp
      simp only [Option.some_bind, Option.some.injEq] at hp
      rw [← hp]
      rfl

/-- The page number of a ListParams that `NewListParamsFromQuery` builds from a
query that parses: 1 when the query has no `page[number]` value, and `n` when
the first `page[number]` value is the decimal number `n ≤ 2^32 - 1`; so it is
at least 1 when the value is absent or `n ≥ 1`. -/
theorem NewListParamsFromQuery_PageNumber (url : NetUrl) (query : String)
    (objectType : ObjectType) (values : Values) (p : ListParams)
    (hparse : url.ParseQuery (url.PathUnescape query).1 = (values, none))
    (hp : NewListParamsFromQuery url query objectType = some p) :
    (Values.get values "page[number]" = [] → p.Pagination.PageNumber = 1) ∧
      (∀ (number : String) (rest : List String) (n : Nat),
        Values.get values "page[number]" = number :: rest →
        strconv.ParseUint number = (n, none) →
        p.Pagination.PageNumber = n ∧ (1 ≤ n → 1 ≤ p.Pagination.PageNumber)) := by
  have hpag := NewListParamsFromQuery_Pagination url query objectType values p hparse hp
  constructor
  · intro h
    rw [hpag]
    unfold ListParams.setPagination
    simp only [h]
    rfl
  · intro number rest n h hnum
    have : p.Pagination.PageNumber = n := by
      rw [hpag]
      unfold ListParams.setPagination
      simp only [h, hnum]
    exact ⟨this, fun h1 => this ▸ h1⟩

theorem NewListParamsFromQuery_PageNumber_witness :
    NewListParamsFromQuery exUrl "page[number]=3&page[size]=10" exObjectType =
        some exParamsPage3 ∧
      exParamsPage3.Pagination.PageNumber = 3 ∧
      ((1 : Nat) ≤ 3 → 1 ≤ exParamsPage3.Pagination.PageNumber) :=
  ⟨rfl,
    (NewListParamsFromQuery_PageNumber exUrl "page[number]=3&page[size]=10" exObjectType
      [("page[number]", ["3"]), ("page[size]", ["10"])] exParamsPage3 rfl rfl).2 "3" [] 3 rfl
      rfl⟩

/-! ## Joins -/

theorem isJoinExist_iff (params : ListParams) (j : join) :
    params.isJoinExist j = true ↔ j ∈ params.joins := by
  unfold ListParams.isJoinExist
  rw [List.any_eq_true]
  constructor
  · rintro ⟨v, hv, he⟩
    simp only [Bool.and_eq_true, beq_iff_eq] at he
    have hvj : v = j := by
      cases v; cases j
      simp only at he
      simp [he.1.1, he.1.2, he.2]
    exact hvj ▸ hv
  · intro h
    exact ⟨j, h, by simp⟩

theorem JoinCall.apply_eq (params : ListParams) (c : JoinCall) :
    c.apply params = params.AddJoin c.tuple.tableName c.tuple.onStatement c.tuple.joinType := by
  cases c <;> rfl

theorem JoinCall.apply_joins_of_mem (params : ListParams) (c : JoinCall)
    (h : c.tuple ∈ params.joins) : (c.apply params).joins = params.joins := by
  rw [JoinCall.apply_eq]
  unfold ListParams.AddJoin
  have he : params.isJoinExist ⟨c.tuple.tableName, c.tuple.onStatement, c.tuple.joinType⟩ =
      true := (isJoinExist_iff params _).mpr h
  simp [he]

theorem JoinCall.apply_joins_of_not_mem (params : ListParams) (c : JoinCall)
    (h : c.tuple ∉ params.joins) : (c.apply params).joins = params.joins ++ [c.tuple] := by
  rw [JoinCall.apply_eq]
  unfold ListParams.AddJoin
  have he : params.isJoinExist ⟨c.tuple.tableName, c.tuple.onStatement, c.tuple.joinType⟩ =
      false := by
    cases hb : params.isJoinExist ⟨c.tuple.tableName, c.tuple.onStatement, c.tuple.joinType⟩ with
    | false => rfl
    | true => exact absurd ((isJoinExist_iff params _).mp hb) h
  simp [he]

theorem applyJoinCalls_append (params : ListParams) (calls : List JoinCall) (c : JoinCall) :
    applyJoinCalls params (calls ++ [c]) = c.apply (applyJoinCalls params calls) := by
  unfold applyJoinCalls
  rw [List.foldl_append]
  rfl

theorem applyJoinCalls_invariant (params : ListParams) (h : params.joins = [])
    (calls : List JoinCall) :
    (applyJoinCalls params calls).joins.Nodup ∧
      (∀ j : join, j ∈ (applyJoinCalls params calls).joins ↔ j ∈ calls.map JoinCall.tuple) ∧
      (applyJoinCalls params calls).joins.Pairwise
        (fun a b => (calls.map JoinCall.tuple).indexOf a < (calls.map JoinCall.tuple).indexOf b) := by
  induction calls using List.reverseRecOn with
  | nil =>
    simp [applyJoinCalls, h]
  | append_singleton calls c ih =>
    obtain ⟨hnd, hmem, hord⟩ := ih
    rw [applyJoinCalls_append]
    by_cases hc : c.tuple ∈ (applyJoinCalls params calls).joins
    · rw [JoinCall.apply_joins_of_mem _ c hc]
      refine ⟨hnd, ?_, ?_⟩
      · intro j
        rw [hmem, List.map_append, List.mem_append]
        constructor
        · exact Or.inl
        · rintro (hj | hj)
          · exact hj
          · simp only [List.map_cons, List.map_nil, List.mem_singleton] at hj
            rw [hj]
            exact (hmem _).mp hc
      · refine hord.imp_of_mem ?_
        intro a b ha hb hab
        rw [List.map_append, List.indexOf_append_of_mem ((hmem a).mp ha),
          List.indexOf_append_of_mem ((hmem b).mp hb)]
        exact hab
    · rw [JoinCall.apply_joins_of_not_mem _ c hc]
      have hct : c.tuple ∉ calls.map JoinCall.tuple := fun e => hc ((hmem _).mpr e)
      refine ⟨?_, ?_, ?_⟩
      · rw [List.nodup_append]
        refine ⟨hnd, List.nodup_singleton _, ?_⟩
        intro a ha hb
        simp only [List.mem_singleton] at hb
        exact hc (hb ▸ ha)
      · intro j
        rw [List.mem_append, hmem, List.map_append, List.mem_append]
        simp
      · rw [List.pairwise_append]
        refine ⟨?_, List.pairwise_singleton _ _, ?_⟩
        · refine hord.imp_of_mem ?_
          intro a b ha hb hab
          rw [List.map_append, List.indexOf_append_of_mem ((hmem a).mp ha),
            List.indexOf_append_of_mem ((hmem b).mp hb)]
          exact hab
        · intro a ha b hb
          simp only [List.mem_singleton] at hb
          subst hb
          have ha' := (hmem a).mp ha
          rw [List.map_append, List.indexOf_append_of_mem ha',
            List.indexOf_append_of_not_mem hct]
          have := List.indexOf_lt_length.mpr ha'
          omega

/-- C16: starting from a ListParams without joins, after any sequence of
AddJoin / AddLeftJoin / AddRightJoin / AddInnerJoin calls the joins list has no
two equal entries, holds exactly the tuples (table name, ON clause, join type)
that were added, and holds them in the order of their first addition; a call
with a tuple already in the list leaves it unchanged, a call with a tuple not
in it appends the tuple. -/
theorem AddJoin_sequence_spec (params : ListParams) (calls : List JoinCall)
    (h : params.joins = []) :
    (applyJoinCalls params calls).joins.Nodup ∧
      (∀ j : join, j ∈ (applyJoinCalls params calls).joins ↔ j ∈ calls.map JoinCall.tuple) ∧
      (applyJoinCalls params calls).joins.Pairwise
        (fun a b =>
          (calls.map JoinCall.tuple).indexOf a < (calls.map JoinCall.tuple).indexOf b) ∧
      (∀ (p : ListParams) (c : JoinCall), c.tuple ∈ p.joins → (c.apply p).joins = p.joins) ∧
      (∀ (p : ListParams) (c : JoinCall),
        c.tuple ∉ p.joins → (c.apply p).joins = p.joins ++ [c.tuple]) := by
  obtain ⟨h1, h2, h3⟩ := applyJoinCalls_invariant params h calls
  exact ⟨h1, h2, h3, JoinCall.apply_joins_of_mem, JoinCall.apply_joins_of_not_mem⟩

theorem AddJoin_sequence_spec_witness :
    (NewListParams exObjectType).joins = [] ∧
      (applyJoinCalls (NewListParams exObjectType) (exJoinCalls.take 2)).joins =
        [⟨"orders", "orders.id = x.order_id", JoinLeft⟩] ∧
      (applyJoinCalls (NewListParams exObjectType) exJoinCalls).joins =
        [⟨"orders", "orders.id = x.order_id", JoinLeft⟩,
          ⟨"orders", "orders.id = x.order_id", JoinInner⟩] ∧
      (applyJoinCalls (NewListParams exObjectType) exJoinCalls).joins.Nodup :=
  ⟨rfl, by decide, by decide,
    (AddJoin_sequence_spec (NewListParams exObjectType) exJoinCalls rfl).1⟩

/-! ## Preloads and custom includes -/

theorem foldl_append_if {α β : Type} (p : α → Bool) (f : α → β) (l : List α) (acc : List β) :
    l.foldl (fun acc x => if p x then acc ++ [f x] else acc) acc =
      acc ++ (l.filter p).map f := by
  induction l generalizing acc with
  | nil => simp
  | cons x xs ih =>
    rw [List.foldl_cons, ih]
    cases hp : p x <;> simp [List.filter_cons, hp]

theorem Includes.isIncluded_iff (self : Includes) (relation : String) :
    self.isIncluded relation = true ↔ relation ∈ self.passedIncludes := by
  unfold Includes.isIncluded
  rw [List.any_eq_true]
  constructor
  · rintro ⟨v, hv, he⟩
    rw [beq_iff_eq] at he
    exact he ▸ hv
  · intro h
    exact ⟨relation, h, by simp⟩

theorem Includes.isIncluded_eq_decide (self : Includes) (relation : String) :
    self.isIncluded relation = decide (relation ∈ self.passedIncludes) := by
  by_cases h : relation ∈ self.passedIncludes
  · rw [(self.isIncluded_iff relation).mpr h]; simp [h]
  · cases hb : self.isIncluded relation with
    | false => simp [h]
    | true => exact absurd ((self.isIncluded_iff relation).mp hb) h

theorem Includes.isCustomIncludes_iff (self : Includes) (field : String) :
    self.isCustomIncludes field = true ↔
      field ∈ self.customIncludes.map (fun c => c.Field) := by
  unfold Includes.isCustomIncludes
  rw [List.any_eq_true, List.mem_map]
  constructor
  · rintro ⟨v, hv, he⟩
    rw [beq_iff_eq] at he
    exact ⟨v, hv, he⟩
  · rintro ⟨v, hv, he⟩
    exact ⟨v, hv, by simp [he]⟩

theorem Split_ne_nil (s : String) (sep : Char) : strings.Split s sep ≠ [] := by
  intro h
  have hl := congrArg List.length h
  unfold strings.Split at hl
  rw [List.length_map, splitChars_length] at hl
  simp at hl

theorem Split_Join_of_not_mem (sep : Char) (segments : List String) (hne : segments ≠ [])
    (h : ∀ s ∈ segments, sep ∉ s.data) :
    strings.Split (strings.Join segments (String.singleton sep)) sep = segments := by
  induction segments with
  | nil => exact absurd rfl hne
  | cons a rest ih =>
    cases rest with
    | nil =>
      rw [Join_singleton]
      exact Split_of_not_mem a sep (h a (by simp))
    | cons b rest2 =>
      have hj : strings.Join (a :: b :: rest2) (String.singleton sep) =
          a ++ String.singleton sep ++ strings.Join (b :: rest2) (String.singleton sep) := rfl
      rw [hj, Split_append_sep a _ sep (h a (by simp)),
        ih (by simp) (fun s hs => h s (by simp [hs]))]

/-- C17: `GetPreloads` returns, in request order, one entry for each requested
include token that is not the field of a registered custom include, and none
for a token that is; the entry is the token split on `"."`, each segment
converted by `ToCamel`, joined with `"."`: as many converted segments as the
token has, and as many segments again when `ToCamel` produces no `"."`. -/
theorem GetPreloads_spec (lib : Lib) (self : Includes) :
    self.GetPreloads lib =
        (self.passedIncludes.filter
            (fun token => decide (token ∉ self.customIncludes.map (fun c => c.Field)))).map
          (fun token => strings.Join ((strings.Split token '.').map lib.ToCamel) ".") ∧
      (∀ token : String,
        ((strings.Split token '.').map lib.ToCamel).length = (strings.Split token '.').length) ∧
      ((∀ s : String, '.' ∉ (lib.ToCamel s).data) →
        ∀ token : String,
          (strings.Split (strings.Join ((strings.Split token '.').map lib.ToCamel) ".")
            '.').length = (strings.Split token '.').length) := by
  refine ⟨?_, fun token => List.length_map _ _, ?_⟩
  · unfold Includes.GetPreloads Includes.getNotCustomIncludes
    have hfold := foldl_append_if
      (fun includes => !self.isCustomIncludes includes && self.isIncluded includes)
      (fun includes : String => includes) self.passedIncludes []
    simp only [List.map_id', List.nil_append] at hfold
    rw [hfold]
    have hfilter : self.passedIncludes.filter
        (fun includes => !self.isCustomIncludes includes && self.isIncluded includes) =
        self.passedIncludes.filter
          (fun token => decide (token ∉ self.customIncludes.map (fun c => c.Field))) := by
      apply List.filter_congr
      intro token htoken
      rw [(self.isIncluded_iff token).mpr htoken, Bool.and_true]
      by_cases hc : token ∈ self.customIncludes.map (fun c => c.Field)
      · rw [(self.isCustomIncludes_iff token).mpr hc]; simp [hc]
      · cases hb : self.isCustomIncludes token with
        | false => simp [hc]
        | true => exact absurd ((self.isCustomIncludes_iff token).mp hb) hc
    rw [hfilter]
    rfl
  · intro hcamel token
    have hs : strings.Split (strings.Join ((strings.Split token '.').map lib.ToCamel) ".") '.' =
        (strings.Split token '.').map lib.ToCamel := by
      apply Split_Join_of_not_mem '.'
      · intro e
        exact Split_ne_nil token '.' (List.map_eq_nil_iff.mp e)
      · intro s hs
        obtain ⟨t, _, ht⟩ := List.mem_map.mp hs
        rw [← ht]
        exact hcamel t
    rw [hs, List.length_map]

theorem GetPreloads_spec_witness :
    exIncludesCustom.GetPreloads exLibCamel = ["Author", "Author.Posts"] := by
  rw [(GetPreloads_spec exLibCamel exIncludesCustom).1]
  decide

/-- C18: `GetCustomIncludesFunctions` returns, in registration order, the
callbacks of exactly those registered custom includes whose field is among the
requested include tokens. -/
theorem GetCustomIncludesFunctions_spec (self : Includes) :
    self.GetCustomIncludesFunctions =
      (self.customIncludes.filter
          (fun c => decide (c.Field ∈ self.passedIncludes))).map (fun c => c.Func) := by
  unfold Includes.GetCustomIncludesFunctions
  have hfold := foldl_append_if (fun c : customIncludes => self.isIncluded c.Field)
    (fun c => c.Func) self.customIncludes []
  rw [List.nil_append] at hfold
  rw [hfold]
  congr 1
  apply List.filter_congr
  intro c _
  exact self.isIncluded_eq_decide c.Field

theorem GetCustomIncludesFunctions_spec_witness :
    exIncludesCustom.GetCustomIncludesFunctions = [7, 9] := by
  rw [GetCustomIncludesFunctions_spec]
  decide

/-! ## Output fields -/

theorem includedName_eq (lib : Lib) (rootFields : List String) (fieldNameStr : String) :
    includedName lib rootFields fieldNameStr =
      strings.Join ((rootFields ++ [fieldNameStr]).map lib.ToLowerCamel) "." := by
  unfold includedName
  cases rootFields with
  | nil => rfl
  | cons a rest =>
    simp only [List.length_cons, List.map_append, List.map_cons, List.map_nil]
    rfl

theorem leavesAt_append (a b : List FieldItem) (path : List String) :
    leavesAt (a ++ b) path = leavesAt a path ++ leavesAt b path := by
  induction a with
  | nil => simp [leavesAt]
  | cons x xs ih => simp [leavesAt, ih]

theorem groupsAt_append (a b : List FieldItem) (path : List String) :
    groupsAt (a ++ b) path = groupsAt a path ++ groupsAt b path := by
  induction a with
  | nil => simp [groupsAt]
  | cons x xs ih => simp [groupsAt, ih]

mutual
theorem leavesAt_getOutputFieldsRecursively (lib : Lib) (self : Includes) :
    ∀ (items : List FieldItem) (rootFields path : List String),
      leavesAt (self.getOutputFieldsRecursively lib items rootFields) path =
        if self.includedFrom lib rootFields path then leavesAt items path else []
  | [], rootFields, path => by
    simp [Includes.getOutputFieldsRecursively, leavesAt]
  | item :: rest, rootFields, path => by
    have h1 := leavesAt_getOutputFieldsOf lib self item rootFields path
    have h2 := leavesAt_getOutputFieldsRecursively lib self rest rootFields path
    rw [Includes.getOutputFieldsRecursively, leavesAt_append, h1, h2]
    cases self.includedFrom lib rootFields path <;> simp [leavesAt]
theorem leavesAt_getOutputFieldsOf (lib : Lib) (self : Includes) :
    ∀ (item : FieldItem) (rootFields path : List String),
      leavesAt (self.getOutputFieldsOf lib item rootFields) path =
        if self.includedFrom lib rootFields path then leavesAtOf item path else []
  | .str name, rootFields, [] => by
    simp [Includes.getOutputFieldsOf, leavesAt, leavesAtOf, Includes.includedFrom]
  | .str name, rootFields, _ :: _ => by
    simp [Includes.getOutputFieldsOf, leavesAt, leavesAtOf]
  | .map entries, rootFields, [] => by
    have h := leavesAt_getOutputFieldsOfMap lib self entries rootFields
    rw [Includes.getOutputFieldsOf, h.1]
    simp [leavesAtOf]
  | .map entries, rootFields, group :: path => by
    have h := leavesAt_getOutputFieldsOfMap lib self entries rootFields
    rw [Includes.getOutputFieldsOf, h.2 group path]
    simp [leavesAtOf]
theorem leavesAt_getOutputFieldsOfMap (lib : Lib) (self : Includes) :
    ∀ (entries : List (String × List FieldItem)) (rootFields : List String),
      leavesAt (self.getOutputFieldsOfMap lib entries rootFields) [] = [] ∧
        ∀ (group : String) (path : List String),
          leavesAt (self.getOutputFieldsOfMap lib entries rootFields) (group :: path) =
            if self.includedFrom lib rootFields (group :: path) then
              leavesAtMap entries group path
            else []
  | [], rootFields => by
    simp [Includes.getOutputFieldsOfMap, leavesAt, leavesAtMap]
  | entry :: rest, rootFields => by
    have h1 := leavesAt_getOutputFieldsOfEntry lib self entry rootFields
    have h2 := leavesAt_getOutputFieldsOfMap lib self rest rootFields
    refine ⟨?_, ?_⟩
    · rw [Includes.getOutputFieldsOfMap, leavesAt_append, h1.1, h2.1]
      rfl
    · intro group path
      rw [Includes.getOutputFieldsOfMap, leavesAt_append, h1.2 group path, h2.2 group path]
      cases self.includedFrom lib rootFields (group :: path) <;> simp [leavesAtMap]
theorem leavesAt_getOutputFieldsOfEntry (lib : Lib) (self : Includes) :
    ∀ (entry : String × List FieldItem) (rootFields : List String),
      leavesAt (self.getOutputFieldsOfEntry lib entry rootFields) [] = [] ∧
        ∀ (group : String) (path : List String),
          leavesAt (self.getOutputFieldsOfEntry lib entry rootFields) (group :: path) =
            if self.includedFrom lib rootFields (group :: path) then
              leavesAtEntry entry group path
            else []
  | (name, fields), rootFields => by
    have h := leavesAt_getOutputFieldsRecursively lib self fields (rootFields ++ [name])
    refine ⟨?_, ?_⟩
    · rw [Includes.getOutputFieldsOfEntry]
      split <;> simp [leavesAt, leavesAtOf]
    · intro group path
      rw [Includes.getOutputFieldsOfEntry]
      by_cases hinc : self.isIncluded (includedName lib rootFields name) = true
      · rw [if_pos hinc]
        by_cases hname : name = group
        · subst hname
          simp [leavesAt, leavesAtOf, leavesAtMap, leavesAtEntry, h path,
            Includes.includedFrom, hinc]
        · simp [leavesAt, leavesAtOf, leavesAtMap, leavesAtEntry, hname]
      · rw [if_neg hinc]
        by_cases hname : name = group
        · subst hname
          simp [leavesAt, leavesAtEntry, Includes.includedFrom, hinc]
        · simp [leavesAt, leavesAtEntry, hname]
end

mutual
theorem groupsAt_getOutputFieldsRecursively (lib : Lib) (self : Includes) :
    ∀ (items : List FieldItem) (rootFields path : List String),
      groupsAt (self.getOutputFieldsRecursively lib items rootFields) path =
        if self.includedFrom lib rootFields path then
          (groupsAt items path).filter
            (fun group => self.isIncluded (includedName lib (rootFields ++ path) group))
        else []
  | [], rootFields, path => by
    simp [Includes.getOutputFieldsRecursively, groupsAt]
  | item :: rest, rootFields, path => by
    have h1 := groupsAt_getOutputFieldsOf lib self item rootFields path
    have h2 := groupsAt_getOutputFieldsRecursively lib self rest rootFields path
    rw [Includes.getOutputFieldsRecursively, groupsAt_append, h1, h2]
    cases self.includedFrom lib rootFields path <;> simp [groupsAt]
theorem groupsAt_getOutputFieldsOf (lib : Lib) (self : Includes) :
    ∀ (item : FieldItem) (rootFields path : List String),
      groupsAt (self.getOutputFieldsOf lib item rootFields) path =
        if self.includedFrom lib rootFields path then
          (groupsAtOf item path).filter
            (fun group => self.isIncluded (includedName lib (rootFields ++ path) group))
        else []
  | .str name, rootFields, path => by
    simp [Includes.getOutputFieldsOf, groupsAt, groupsAtOf]
  | .map entries, rootFields, [] => by
    have h := groupsAt_getOutputFieldsOfMap lib self entries rootFields
    rw [Includes.getOutputFieldsOf, h.1]
    simp [groupsAtOf, Includes.includedFrom]
  | .map entries, rootFields, group :: path => by
    have h := groupsAt_getOutputFieldsOfMap lib self entries rootFields
    rw [Includes.getOutputFieldsOf, h.2 group path]
    simp [groupsAtOf]
theorem groupsAt_getOutputFieldsOfMap (lib : Lib) (self : Includes) :
    ∀ (entries : List (String × List FieldItem)) (rootFields : List String),
      groupsAt (self.getOutputFieldsOfMap lib entries rootFields) [] =
          (entries.map (fun entry => entry.1)).filter
            (fun group => self.isIncluded (includedName lib rootFields group)) ∧
        ∀ (group : String) (path : List String),
          groupsAt (self.getOutputFieldsOfMap lib entries rootFields) (group :: path) =
            if self.includedFrom lib rootFields (group :: path) then
              (groupsAtMap entries group path).filter
                (fun g => self.isIncluded (includedName lib (rootFields ++ group :: path) g))
            else []
  | [], rootFields => by
    simp [Includes.getOutputFieldsOfMap, groupsAt, groupsAtMap]
  | entry :: rest, rootFields => by
    have h1 := groupsAt_getOutputFieldsOfEntry lib self entry rootFields
    have h2 := groupsAt_getOutputFieldsOfMap lib self rest rootFields
    refine ⟨?_, ?_⟩
    · rw [Includes.getOutputFieldsOfMap, groupsAt_append, h1.1, h2.1]
      simp only [List.map_cons, List.filter_cons]
      split <;> simp
    · intro group path
      rw [Includes.getOutputFieldsOfMap, groupsAt_append, h1.2 group path, h2.2 group path]
      cases self.includedFrom lib rootFields (group :: path) <;> simp [groupsAtMap]
theorem groupsAt_getOutputFieldsOfEntry (lib : Lib) (self : Includes) :
    ∀ (entry : String × List FieldItem) (rootFields : List String),
      groupsAt (self.getOutputFieldsOfEntry lib entry rootFields) [] =
          (if self.isIncluded (includedName lib rootFields entry.1) then [entry.1] else []) ∧
        ∀ (group : String) (path : List String),
          groupsAt (self.getOutputFieldsOfEntry lib entry rootFields) (group :: path) =
            if self.includedFrom lib rootFields (group :: path) then
              (groupsAtEntry entry group path).filter
                (fun g => self.isIncluded (includedName lib (rootFields ++ group :: path) g))
            else []
  | (name, fields), rootFields => by
    have h := groupsAt_getOutputFieldsRecursively lib self fields (rootFields ++ [name])
    refine ⟨?_, ?_⟩
    · rw [Includes.getOutputFieldsOfEntry]
      split <;> simp [groupsAt, groupsAtOf]
    · intro group path
      rw [Includes.getOutputFieldsOfEntry]
      by_cases hinc : self.isIncluded (includedName lib rootFields name) = true
      · rw [if_pos hinc]
        by_cases hname : name = group
        · subst hname
          simp [groupsAt, groupsAtOf, groupsAtMap, groupsAtEntry, h path,
            Includes.includedFrom, hinc]
        · simp [groupsAt, groupsAtOf, groupsAtMap, groupsAtEntry, hname]
      · rw [if_neg hinc]
        by_cases hname : name = group
        · subst hname
          simp [groupsAt, groupsAtEntry, Includes.includedFrom, hinc]
        · simp [groupsAt, groupsAtEntry, hname]
end

theorem includedFrom_iff (lib : Lib) (self : Includes) (path : List String) :
    ∀ rootFields : List String,
      self.includedFrom lib rootFields path = true ↔
        ∀ k : Nat, 0 < k → k ≤ path.length →
          strings.Join ((rootFields ++ path.take k).map lib.ToLowerCamel) "." ∈
            self.passedIncludes := by
  induction path with
  | nil =>
    intro rootFields
    simp only [Includes.includedFrom, List.length_nil, true_iff]
    intro k hk hle
    omega
  | cons group rest ih =>
    intro rootFields
    rw [Includes.includedFrom, Bool.and_eq_true, Includes.isIncluded_iff, includedName_eq,
      ih (rootFields ++ [group])]
    constructor
    · rintro ⟨h1, h2⟩ k hk hle
      cases k with
      | zero => omega
      | succ k' =>
        cases k' with
        | zero => simpa using h1
        | succ k'' =>
          have := h2 (k'' + 1) (by omega) (by simp only [List.length_cons] at hle; omega)
          simpa [List.take_succ_cons, List.append_assoc] using this
    · intro h
      refine ⟨?_, ?_⟩
      · have := h 1 (by omega) (by simp)
        simpa using this
      · intro k hk hle
        have := h (k + 1) (by omega) (by simp only [List.length_cons]; omega)
        simpa [List.take_succ_cons, List.append_assoc] using this

/-- C19: with no sparse-fieldset restriction, at a node whose path has every
group requested (the dotted name of each non-empty start of the path, its
segments lower-camel-cased and joined by `"."`, is a requested include; the
root is such a node) `GetOutputFields` keeps the leaf names of the allowed tree
in order, and keeps exactly the child groups whose own dotted name is
requested; at any other path nothing is left, neither leaves nor groups. -/
theorem GetOutputFields_without_selection (lib : Lib) (self : Includes)
    (hsel : self.selectedFields = []) (path : List String) :
    ((∀ k : Nat, 0 < k → k ≤ path.length →
          strings.Join ((path.take k).map lib.ToLowerCamel) "." ∈ self.passedIncludes) →
        leavesAt (self.GetOutputFields lib) path = leavesAt self.fieldsSet path ∧
          groupsAt (self.GetOutputFields lib) path =
            (groupsAt self.fieldsSet path).filter
              (fun group =>
                decide (strings.Join ((path ++ [group]).map lib.ToLowerCamel) "." ∈
                  self.passedIncludes))) ∧
      (¬ (∀ k : Nat, 0 < k → k ≤ path.length →
          strings.Join ((path.take k).map lib.ToLowerCamel) "." ∈ self.passedIncludes) →
        leavesAt (self.GetOutputFields lib) path = [] ∧
          groupsAt (self.GetOutputFields lib) path = []) := by
  have hout : self.GetOutputFields lib =
      self.getOutputFieldsRecursively lib self.fieldsSet [] := by
    unfold Includes.GetOutputFields
    simp [hsel]
  have hiff := includedFrom_iff lib self path []
  simp only [List.nil_append] at hiff
  rw [hout, leavesAt_getOutputFieldsRecursively, groupsAt_getOutputFieldsRecursively]
  constructor
  · intro h
    rw [hiff.mpr h]
    refine ⟨rfl, ?_⟩
    simp only [if_true, List.nil_append]
    apply List.filter_congr
    intro group _
    rw [includedName_eq, Includes.isIncluded_eq_decide]
  · intro h
    have hf : self.includedFrom lib [] path = false := by
      cases hb : self.includedFrom lib [] path with
      | false => rfl
      | true => exact absurd (hiff.mp hb) h
    rw [hf]
    simp

theorem GetOutputFields_without_selection_witness :
    exIncludesTree.selectedFields = [] ∧
      leavesAt (exIncludesTree.GetOutputFields exLib) ["author"] = ["id", "email"] ∧
      groupsAt (exIncludesTree.GetOutputFields exLib) ["author"] = ["likes"] ∧
      leavesAt (exIncludesTree.GetOutputFields exLib) ["comments"] = [] ∧
      groupsAt (exIncludesTree.GetOutputFields exLib) [] = ["author"] := by
  have h1 := (GetOutputFields_without_selection exLib exIncludesTree rfl ["author"]).1
    (by
      intro k hk hle
      have hk1 : k = 1 := by simp only [List.length_singleton] at hle; omega
      subst hk1
      decide)
  have h2 := (GetOutputFields_without_selection exLib exIncludesTree rfl ["comments"]).2
    (by
      intro h
      have := h 1 (by omega) (by simp)
      revert this
      decide)
  have h3 := (GetOutputFields_without_selection exLib exIncludesTree rfl []).1
    (by
      intro k hk hle
      simp only [List.length_nil] at hle
      omega)
  refine ⟨rfl, ?_, ?_, h2.1, ?_⟩
  · rw [h1.1]; decide
  · rw [h1.2]; decide
  · rw [h3.2]; decide

/-! ## Sparse fieldsets -/

theorem leavesAtMap_append (a b : List (String × List FieldItem)) (group : String)
    (path : List String) :
    leavesAtMap (a ++ b) group path = leavesAtMap a group path ++ leavesAtMap b group path := by
  induction a with
  | nil => simp [leavesAtMap]
  | cons x xs ih => simp [leavesAtMap, ih]

theorem mem_leavesAt_nil_iff (leaf : String) (selectedFields : List FieldItem) :
    leaf ∈ leavesAt selectedFields [] ↔ hasSelectedFieldStr leaf selectedFields = true := by
  induction selectedFields with
  | nil => simp [leavesAt, hasSelectedFieldStr]
  | cons item rest ih =>
    cases item with
    | str field =>
      simp only [leavesAt, leavesAtOf, hasSelectedFieldStr, List.singleton_append,
        List.mem_cons, ih]
      by_cases h : field = leaf
      · simp [h]
      · have h' : ¬ leaf = field := fun e => h e.symm
        simp [h, h']
    | map entries =>
      simp only [leavesAt, leavesAtOf, hasSelectedFieldStr, List.nil_append, ih]

theorem lookupMapKey_eq_none (mapKey : String) (entries : List (String × List FieldItem))
    (h : mapKey ∉ entries.map (fun entry => entry.1)) : lookupMapKey mapKey entries = none := by
  induction entries with
  | nil => rfl
  | cons entry rest ih =>
    simp only [List.map_cons, List.mem_cons, not_or] at h
    have hne : ¬ (entry.1 == mapKey) = true := by
      rw [beq_iff_eq]
      exact fun e => h.1 e.symm
    rw [lookupMapKey, if_neg hne]
    exact ih h.2

theorem lookupMapKey_some_mem (mapKey : String) (entries : List (String × List FieldItem))
    (v : List FieldItem) (h : lookupMapKey mapKey entries = some v) : (mapKey, v) ∈ entries := by
  induction entries with
  | nil => simp [lookupMapKey] at h
  | cons entry rest ih =>
    rw [lookupMapKey] at h
    by_cases he : (entry.1 == mapKey) = true
    · rw [if_pos he] at h
      rw [beq_iff_eq] at he
      simp only [Option.some.injEq] at h
      have : entry = (mapKey, v) := by
        rw [← he, ← h]
      rw [this]
      exact List.mem_cons_self _ _
    · rw [if_neg he] at h
      exact List.mem_cons_of_mem _ (ih h)

theorem leavesAtMap_of_not_mem (entries : List (String × List FieldItem)) (group : String)
    (path : List String) (h : group ∉ entries.map (fun entry => entry.1)) :
    leavesAtMap entries group path = [] := by
  induction entries with
  | nil => rfl
  | cons entry rest ih =>
    simp only [List.map_cons, List.mem_cons, not_or] at h
    obtain ⟨name, fields⟩ := entry
    have hne : ¬ name = group := fun e => h.1 e.symm
    simp [leavesAtMap, leavesAtEntry, hne, ih h.2]

theorem leavesAtMap_of_lookup (entries : List (String × List FieldItem)) (group : String)
    (path : List String) (v : List FieldItem)
    (hnodup : (entries.map (fun entry => entry.1)).Nodup)
    (h : lookupMapKey group entries = some v) :
    leavesAtMap entries group path = leavesAt v path := by
  induction entries with
  | nil => simp [lookupMapKey] at h
  | cons entry rest ih =>
    obtain ⟨name, fields⟩ := entry
    simp only [List.map_cons, List.nodup_cons] at hnodup
    rw [lookupMapKey] at h
    by_cases he : (name == group) = true
    · rw [if_pos he] at h
      rw [beq_iff_eq] at he
      simp only [Option.some.injEq] at h
      subst he
      subst h
      simp [leavesAtMap, leavesAtEntry, leavesAtMap_of_not_mem rest name path hnodup.1]
    · rw [if_neg he] at h
      rw [beq_iff_eq] at he
      simp [leavesAtMap, leavesAtEntry, he, ih hnodup.2 h]

theorem leavesAt_of_not_mem_groups (items : List FieldItem) (group : String)
    (path : List String) (h : group ∉ groupsAt items []) :
    leavesAt items (group :: path) = [] := by
  induction items with
  | nil => rfl
  | cons item rest ih =>
    rw [groupsAt, List.mem_append, not_or] at h
    cases item with
    | str name => simp [leavesAt, leavesAtOf, ih h.2]
    | map entries =>
      have hk : group ∉ entries.map (fun entry => entry.1) := by
        simpa [groupsAtOf] using h.1
      simp [leavesAt, leavesAtOf, leavesAtMap_of_not_mem entries group path hk, ih h.2]

theorem leavesAt_cons_eq_of_nodup (selectedFields : List FieldItem) (group : String)
    (path : List String) (hnodup : (groupsAt selectedFields []).Nodup) :
    leavesAt selectedFields (group :: path) =
      match getSelectedFieldsByMapKey group selectedFields with
      | some v => leavesAt v path
      | none => [] := by
  induction selectedFields with
  | nil => rfl
  | cons item rest ih =>
    rw [groupsAt, List.nodup_append] at hnodup
    obtain ⟨hitem, hrest, hdisj⟩ := hnodup
    cases item with
    | str name =>
      simp only [leavesAt, leavesAtOf, List.nil_append, getSelectedFieldsByMapKey]
      exact ih hrest
    | map entries =>
      simp only [groupsAtOf] at hitem hdisj
      simp only [leavesAt, leavesAtOf, getSelectedFieldsByMapKey]
      cases hl : lookupMapKey group entries with
      | none =>
        have hk : group ∉ entries.map (fun entry => entry.1) := by
          intro hm
          obtain ⟨entry, hentry, he⟩ := List.mem_map.mp hm
          have : ∀ (es : List (String × List FieldItem)), entry ∈ es →
              lookupMapKey group es ≠ none := by
            intro es
            induction es with
            | nil => intro hx; simp at hx
            | cons x xs ihx =>
              intro hx
              rw [lookupMapKey]
              by_cases hxe : (x.1 == group) = true
              · rw [if_pos hxe]; simp
              · rw [if_neg hxe]
                rcases List.mem_cons.mp hx with hx1 | hx2
                · exfalso
                  apply hxe
                  rw [beq_iff_eq, ← hx1, he]
                · exact ihx hx2
          exact this entries hentry hl
        rw [leavesAtMap_of_not_mem entries group path hk, List.nil_append]
        exact ih hrest
      | some v =>
        have hmem := lookupMapKey_some_mem group entries v hl
        have hk : group ∈ entries.map (fun entry => entry.1) :=
          List.mem_map.mpr ⟨(group, v), hmem, rfl⟩
        have hnot : group ∉ groupsAt rest [] := fun hr => hdisj hk hr
        rw [leavesAtMap_of_lookup entries group path v hitem hl,
          leavesAt_of_not_mem_groups rest group path hnot, List.append_nil]

theorem uniqueGroups_of_mem_entries (entries : List (String × List FieldItem))
    (key : String) (v : List FieldItem) (h : uniqueGroupsBelowMap entries = true)
    (hmem : (key, v) ∈ entries) : uniqueGroups v = true := by
  induction entries with
  | nil => simp at hmem
  | cons entry rest ih =>
    rw [uniqueGroupsBelowMap, Bool.and_eq_true] at h
    rcases List.mem_cons.mp hmem with he | hr
    · rw [← he] at h
      exact h.1
    · exact ih h.2 hr

theorem uniqueGroups_of_getSelectedFieldsByMapKey (selectedFields : List FieldItem)
    (key : String) (v : List FieldItem) (h : uniqueGroupsBelow selectedFields = true)
    (hget : getSelectedFieldsByMapKey key selectedFields = some v) : uniqueGroups v = true := by
  induction selectedFields with
  | nil => simp [getSelectedFieldsByMapKey] at hget
  | cons item rest ih =>
    rw [uniqueGroupsBelow, Bool.and_eq_true] at h
    cases item with
    | str name =>
      rw [getSelectedFieldsByMapKey] at hget
      exact ih h.2 hget
    | map entries =>
      rw [getSelectedFieldsByMapKey] at hget
      cases hl : lookupMapKey key entries with
      | none =>
        rw [hl] at hget
        exact ih h.2 hget
      | some w =>
        rw [hl] at hget
        simp only [Option.some.injEq] at hget
        subst hget
        exact uniqueGroups_of_mem_entries entries key w h.1
          (lookupMapKey_some_mem key entries w hl)

theorem uniqueGroups_iff (items : List FieldItem) :
    uniqueGroups items = true ↔
      (groupsAt items []).Nodup ∧ uniqueGroupsBelow items = true := by
  unfold uniqueGroups
  rw [Bool.and_eq_true, decide_eq_true_iff]

mutual
theorem mem_leavesAt_getFieldsToDisplay (leaf : String) :
    ∀ (allowedFields selectedFields : List FieldItem) (path : List String),
      uniqueGroups selectedFields = true →
      (leaf ∈ leavesAt (getFieldsToDisplay allowedFields selectedFields) path ↔
        leaf ∈ leavesAt allowedFields path ∧ leaf ∈ leavesAt selectedFields path)
  | [], selectedFields, path, _ => by
    simp [getFieldsToDisplay, leavesAt]
  | key :: rest, selectedFields, path, hu => by
    have h1 := mem_leavesAt_getFieldsToDisplayOf leaf key selectedFields path hu
    have h2 := mem_leavesAt_getFieldsToDisplay leaf rest selectedFields path hu
    rw [getFieldsToDisplay, leavesAt_append, List.mem_append, h1, h2, leavesAt,
      List.mem_append]
    tauto
theorem mem_leavesAt_getFieldsToDisplayOf (leaf : String) :
    ∀ (key : FieldItem) (selectedFields : List FieldItem) (path : List String),
      uniqueGroups selectedFields = true →
      (leaf ∈ leavesAt (getFieldsToDisplayOf key selectedFields) path ↔
        leaf ∈ leavesAtOf key path ∧ leaf ∈ leavesAt selectedFields path)
  | .str key, selectedFields, [], _ => by
    rw [getFieldsToDisplayOf, mem_leavesAt_nil_iff leaf selectedFields]
    by_cases hs : hasSelectedFieldStr key selectedFields = true
    · rw [if_pos hs]
      simp only [leavesAt, leavesAtOf, List.append_nil, List.mem_singleton]
      constructor
      · intro h; rw [h]; exact ⟨rfl, hs⟩
      · exact fun h => h.1
    · rw [if_neg hs]
      simp only [leavesAt, leavesAtOf, List.not_mem_nil, List.mem_singleton, false_iff, not_and]
      intro h; rw [h]; exact hs
  | .str key, selectedFields, _ :: _, _ => by
    rw [getFieldsToDisplayOf]
    split <;> simp [leavesAt, leavesAtOf]
  | .map allowedMap, selectedFields, [], _ => by
    rw [getFieldsToDisplayOf]
    split <;> simp [leavesAt, leavesAtOf]
  | .map allowedMap, selectedFields, group :: path, hu => by
    have h := mem_leavesAtMap_getAllowedSelectedMap leaf allowedMap selectedFields group path hu
    have hl : leavesAt (getFieldsToDisplayOf (.map allowedMap) selectedFields) (group :: path) =
        leavesAtMap (getAllowedSelectedMap allowedMap selectedFields) group path := by
      rw [getFieldsToDisplayOf]
      split
      · next he => rw [he]; simp [leavesAt, leavesAtMap]
      · simp [leavesAt, leavesAtOf]
    rw [hl, h]
    simp [leavesAtOf]
theorem mem_leavesAtMap_getAllowedSelectedMap (leaf : String) :
    ∀ (allowedMap : List (String × List FieldItem)) (selectedFields : List FieldItem)
      (group : String) (path : List String),
      uniqueGroups selectedFields = true →
      (leaf ∈ leavesAtMap (getAllowedSelectedMap allowedMap selectedFields) group path ↔
        leaf ∈ leavesAtMap allowedMap group path ∧
          leaf ∈ leavesAt selectedFields (group :: path))
  | [], selectedFields, group, path, _ => by
    simp [getAllowedSelectedMap, leavesAtMap]
  | entry :: rest, selectedFields, group, path, hu => by
    have h1 := mem_leavesAtMap_getAllowedSelectedEntry leaf entry selectedFields group path hu
    have h2 := mem_leavesAtMap_getAllowedSelectedMap leaf rest selectedFields group path hu
    rw [getAllowedSelectedMap, leavesAtMap_append, List.mem_append, h1, h2, leavesAtMap,
      List.mem_append]
    tauto
theorem mem_leavesAtMap_getAllowedSelectedEntry (leaf : String) :
    ∀ (entry : String × List FieldItem) (selectedFields : List FieldItem)
      (group : String) (path : List String),
      uniqueGroups selectedFields = true →
      (leaf ∈ leavesAtMap (getAllowedSelectedEntry entry selectedFields) group path ↔
        leaf ∈ leavesAtEntry entry group path ∧
          leaf ∈ leavesAt selectedFields (group :: path))
  | (key, value), selectedFields, group, path, hu => by
    have hu' := (uniqueGroups_iff selectedFields).mp hu
    have hsel := leavesAt_cons_eq_of_nodup selectedFields group path hu'.1
    rw [getAllowedSelectedEntry, hsel]
    by_cases hk : key = group
    · subst hk
      cases hget : getSelectedFieldsByMapKey key selectedFields with
      | none => simp [leavesAtMap]
      | some inner =>
        have hinner := uniqueGroups_of_getSelectedFieldsByMapKey selectedFields key inner
          hu'.2 hget
        have ih := mem_leavesAt_getFieldsToDisplay leaf value inner path hinner
        simp [leavesAtMap, leavesAtEntry, ih]
    · cases hget : getSelectedFieldsByMapKey key selectedFields with
      | none => simp [leavesAtMap, leavesAtEntry, hk]
      | some inner => simp [leavesAtMap, leavesAtEntry, hk]
end

/-- C20: with a non-empty sparse-fieldset tree whose group names are unique
among siblings, a leaf is in `GetOutputFields` at a path iff it is a leaf at
that path in the allowed tree and in the sparse-fieldset tree and every group
on the path is a requested include (the dotted name of each non-empty start of
the path, lower-camel-cased, is requested). -/
theorem GetOutputFields_with_selection (lib : Lib) (self : Includes)
    (hsel : self.selectedFields ≠ []) (hunique : uniqueGroups self.selectedFields = true)
    (path : List String) (leaf : String) :
    leaf ∈ leavesAt (self.GetOutputFields lib) path ↔
      leaf ∈ leavesAt self.fieldsSet path ∧ leaf ∈ leavesAt self.selectedFields path ∧
        ∀ k : Nat, 0 < k → k ≤ path.length →
          strings.Join ((path.take k).map lib.ToLowerCamel) "." ∈ self.passedIncludes := by
  have hlen : self.selectedFields.length > 0 := List.length_pos.mpr hsel
  have hout : self.GetOutputFields lib =
      self.getOutputFieldsRecursively lib
        (getFieldsToDisplay self.fieldsSet self.selectedFields) [] := by
    unfold Includes.GetOutputFields
    simp [hlen]
  have hiff := includedFrom_iff lib self path []
  simp only [List.nil_append] at hiff
  rw [hout, leavesAt_getOutputFieldsRecursively]
  by_cases hinc : self.includedFrom lib [] path = true
  · rw [if_pos hinc,
      mem_leavesAt_getFieldsToDisplay leaf self.fieldsSet self.selectedFields path hunique]
    constructor
    · rintro ⟨h1, h2⟩
      exact ⟨h1, h2, hiff.mp hinc⟩
    · rintro ⟨h1, h2, _⟩
      exact ⟨h1, h2⟩
  · rw [if_neg hinc]
    constructor
    · intro h
      simp at h
    · rintro ⟨_, _, h3⟩
      exact absurd (hiff.mpr h3) hinc

theorem GetOutputFields_with_selection_witness :
    exIncludesSelected.selectedFields ≠ [] ∧
      uniqueGroups exIncludesSelected.selectedFields = true ∧
      "email" ∈ leavesAt (exIncludesSelected.GetOutputFields exLib) ["author"] ∧
      leavesAt (exIncludesSelected.GetOutputFields exLib) [] = ["id"] ∧
      leavesAt (exIncludesSelected.GetOutputFields exLib) ["author"] = ["email"] ∧
      leavesAt (exIncludesSelected.GetOutputFields exLib) ["comments"] = [] :=
  ⟨List.cons_ne_nil _ _, by decide,
    (GetOutputFields_with_selection exLib exIncludesSelected (List.cons_ne_nil _ _) (by decide)
      ["author"] "email").mpr
      ⟨by decide, by decide, by
        intro k hk hle
        have hk1 : k = 1 := by simp only [List.length_singleton] at hle; omega
        subst hk1
        decide⟩,
    by decide, by decide, by decide⟩

/-! ## Error messages, bind arguments, parsing without values -/

/-- C25 on the code: the message for a requested include `X` that is not
allowed is `Including of X in not allowed` (with `in`), by `Includes.Validate`
and, copied, by `ListParams.Validate`; it is not `Including of X is not
allowed`. -/
theorem Validate_include_message_reads_in_not_allowed :
    exIncludes.Validate.1.2 = [⟨"Including of comments in not allowed"⟩] ∧
      exIncludes.Validate.1.2 ≠ [⟨"Including of comments is not allowed"⟩] ∧
      (({ exParams with Includes := some exIncludes } : ListParams).Validate).map
          (fun r => r.1.2) =
        some [⟨"Including of comments in not allowed"⟩] := by
  decide

/-- C26 on the code: for `filter[status]=a,b` the SQL has two placeholders and
the bind-argument list has one element, the slice of both values; the values
of a usual filter are appended as one argument. -/
theorem GetWhereCondition_two_values_one_argument :
    exParamsTwoValues.GetWhereCondition exLib exCallbacks =
        some ("users.status = ? OR users.status = ?",
          [Value.slice [Value.str "a", Value.str "b"]]) ∧
      countChar '?' "users.status = ? OR users.status = ?" = 2 ∧
      [Value.slice [Value.str "a", Value.str "b"]].length = 1 ∧
      exParamsOnlyEq.GetWhereCondition exLib exCallbacks =
        some ("users.name = ?", [Value.slice [Value.str "bob"]]) := by
  decide

/-- C27 on the code: the sort step panics on an empty token (`sort=`,
`sort=a,,b`) and the filter step panics on a key that contains the filter
pattern without being a key itself (`xfilter[a]`); no ListParams is built. -/
theorem parsing_steps_panic :
    exParams.setSortingParams [("sort", [""])] = none ∧
      exParams.setSortingParams [("sort", ["a,,b"])] = none ∧
      exParams.setFilters [("xfilter[a]", ["1"])] = none ∧
      NewListParamsFromQuery exUrlKeys "sort=" exObjectType = none ∧
      NewListParamsFromQuery exUrlKeys "xfilter[a]=1" exObjectType = none := by
  refine ⟨rfl, rfl, rfl, rfl, rfl⟩

/-! ## Repeated validation -/

theorem Includes_Validate_twice_errors (self : Includes) :
    self.Validate.2.Validate.1.2 =
      self.Validate.1.2 ++
        (self.passedIncludes.filter (fun v => decide (v ∉ self.allowedIncludes))).map
          (fun v => errorsNew ("Including of " ++ v ++ " in not allowed")) := by
  rw [Includes_Validate_errors self.Validate.2, Includes_Validate_state self]

theorem bool_of_prefix {α : Type} (first more : List α)
    (h : first = [] → more = []) :
    ((first ++ more).length == 0) = (first.length == 0) := by
  cases first with
  | nil => simp [h rfl]
  | cons a rest => simp

/-- The errors a second call records are none exactly when the first call
recorded none. -/
theorem recordedErrors_twice (params : ListParams) (includes : Includes) :
    (({ params with
          errors := params.errors ++ params.recordedErrors includes
          Includes := some includes.Validate.2 } : ListParams).recordedErrors
        includes.Validate.2 = [] ↔
      params.recordedErrors includes = []) := by
  have hpi2 := Includes_Validate_twice_errors includes
  have hpi1 := Includes_Validate_errors includes
  unfold ListParams.recordedErrors
  simp only [List.append_eq_nil]
  constructor
  · intro h
    have hd := h.1.2
    rw [hpi2] at hd
    exact ⟨⟨h.1.1, (List.append_eq_nil.mp hd).1⟩, h.2⟩
  · intro h
    have hd := h.1.2
    rw [hpi1] at hd
    refine ⟨⟨h.1.1, ?_⟩, h.2⟩
    rw [hpi2, h.1.2, (List.append_eq_nil.mp hd).2]
    rfl

/-- C28 as stated fails: a second `Validate` call returns a longer error list.
For the include `comments` that is not allowed, the first call of
`Includes.Validate` returns one error and the second two; the ListParams
`exParamsValidate` gets 3 errors from the first call and 7 from the second. -/
theorem Validate_second_call_returns_more_errors :
    exIncludes.Validate.1.2 = [⟨"Including of comments in not allowed"⟩] ∧
      exIncludes.Validate.2.Validate.1.2 =
        [⟨"Including of comments in not allowed"⟩, ⟨"Including of comments in not allowed"⟩] ∧
      exParamsValidate.Validate.map (fun first => first.1.2.length) = some 3 ∧
      (exParamsValidate.Validate.bind (fun first => first.2.Validate)).map
        (fun second => second.1.2.length) = some 7 := by
  decide

/-- C28, amended: a second `Validate` call with no change in between returns
the same boolean as the first, and an error list that is the list of the first
call followed by the errors recorded again: for `Includes.Validate` one per
requested include that is not allowed; for `ListParams.Validate` on a
ListParams with an `Includes` the sorting and filter errors, the whole error
list of its Includes after their second validation, and the pagination error.
The two lists are equal exactly when the first call recorded no error.  On a
ListParams whose `Includes` are `nil` the first call panics. -/
theorem Validate_twice_spec (self : Includes) (params : ListParams) :
    self.Validate.2.Validate.1.1 = self.Validate.1.1 ∧
      self.Validate.2.Validate.1.2 =
        self.Validate.1.2 ++
          (self.passedIncludes.filter (fun v => decide (v ∉ self.allowedIncludes))).map
            (fun v => errorsNew ("Including of " ++ v ++ " in not allowed")) ∧
      (self.Validate.2.Validate.1.2 = self.Validate.1.2 ↔ self.Validate.1.2 = self.errors) ∧
      (params.Includes = none → params.Validate = none) ∧
      (∀ includes : Includes, params.Includes = some includes →
        ∃ first second : (Bool × List GoError) × ListParams,
          params.Validate = some first ∧ first.2.Validate = some second ∧
          second.1.1 = first.1.1 ∧
          second.1.2 =
            first.1.2 ++
              ((params.Sortings.filter
                  (fun v => decide (v.Field ∉ params.allowedListParams.Sortings))).map
                (fun v => NewErrorString ("Sorting by " ++ v.Field ++ " in not allowed")) ++
              (params.Filters.filter
                  (fun v =>
                    decide (v.toFieldOperatorPair ∉ params.allowedListParams.Filters))).map
                (fun v => NewErrorString
                  ("Filter " ++ v.Field ++ " is not allowed with operator " ++ v.Operator)) ++
              includes.Validate.2.Validate.1.2 ++
              (if params.allowedListParams.Pagination = false ∧
                  (params.Pagination.PageNumber ≠ 1 ∨
                    (params.Pagination.PageSize ≠ 20 ∧ params.Pagination.PageSize ≠ 0)) then
                [NewErrorString "Pagination is not allowed"]
              else [])) ∧
          (second.1.2 = first.1.2 ↔ first.1.2 = params.errors)) := by
  have hi2 := Includes_Validate_twice_errors self
  have hi1 := Includes_Validate_errors self
  refine ⟨?_, hi2, ?_, ListParams_Validate_of_nil params, ?_⟩
  · rw [Includes_Validate_ok, Includes_Validate_ok self, hi2]
    apply bool_of_prefix
    intro h
    rw [hi1] at h
    exact (List.append_eq_nil.mp h).2
  · rw [hi2, hi1]
    constructor
    · intro h
      have := List.append_right_eq_self.mp h
      rw [this, List.append_nil]
    · intro h
      have := List.append_right_eq_self.mp h
      rw [this, List.append_nil]
  · intro includes hinc
    have htwice := recordedErrors_twice params includes
    refine ⟨_, _, ListParams_Validate_of_Includes params includes hinc,
      ListParams_Validate_of_Includes _ includes.Validate.2 rfl, ?_, rfl, ?_⟩
    · apply bool_of_prefix
      intro h
      exact htwice.mpr (List.append_eq_nil.mp h).2
    · constructor
      · intro h
        have hm := htwice.mp (List.append_right_eq_self.mp h)
        show params.errors ++ params.recordedErrors includes = params.errors
        rw [hm, List.append_nil]
      · intro h
        have hm : params.recordedErrors includes = [] := List.append_right_eq_self.mp h
        exact List.append_right_eq_self.mpr (htwice.mpr hm)

theorem Validate_twice_spec_witness :
    exParamsValidate.Includes = some exIncludes ∧
      exParamsValidate.Validate.map (fun first => first.1) =
        some (false,
          [NewErrorString "Filter age is not allowed with operator like",
            NewErrorString "Including of comments in not allowed",
            NewErrorString "Pagination is not allowed"]) ∧
      (exParamsValidate.Validate.bind (fun first => first.2.Validate)).map
          (fun second => second.1) =
        some (false,
          [NewErrorString "Filter age is not allowed with operator like",
            NewErrorString "Including of comments in not allowed",
            NewErrorString "Pagination is not allowed",
            NewErrorString "Filter age is not allowed with operator like",
            NewErrorString "Including of comments in not allowed",
            NewErrorString "Including of comments in not allowed",
            NewErrorString "Pagination is not allowed"]) := by
  obtain ⟨first, second, hfirst, hsecond, hok, herrors, _⟩ :=
    (Validate_twice_spec exIncludes exParamsValidate).2.2.2.2 exIncludes rfl
  have hone : exParamsValidate.Validate.map (fun first => first.1) =
      some (false,
        [NewErrorString "Filter age is not allowed with operator like",
          NewErrorString "Including of comments in not allowed",
          NewErrorString "Pagination is not allowed"]) := by decide
  refine ⟨rfl, hone, ?_⟩
  rw [hfirst] at hone
  simp only [Option.map_some', Option.some.injEq] at hone
  rw [hfirst, Option.some_bind, hsecond, Option.map_some']
  have hpair : second.1 = (second.1.1, second.1.2) := rfl
  rw [hpair, hok, herrors, hone]
  decide

/-! ## Select query -/

/-- C21 on the code: the group `userGroups` of the custom include `userGroups`
is part of the select list.  `selectQueryRecursively` looks up the snake case
of the group key, `user_groups`, among the custom includes; only a custom
include whose name is its own snake case, like `author`, is skipped. -/
theorem GetSelectQuery_keeps_camelCase_custom_include :
    exIncludesUserGroups.isCustomIncludes "userGroups" = true ∧
      groupsAt (exIncludesUserGroups.GetOutputFields exLibGroups) [] =
        ["userGroups", "author"] ∧
      exIncludesUserGroups.GetSelectQuery exLibGroups = ["id", "user_groups.name"] := by
  decide

/-- C29 on the code: `GetSelectQuery` returns the empty list when a fields tree
is declared and no output field is left (no leaf at the root and no requested
include, or a sparse fieldset that names no allowed field); the adapter then
reads `paramsQuery[0]` out of range. -/
theorem GetSelectQuery_empty_list :
    exIncludesNoRoot.GetSelectQuery exLib = [] ∧
      exIncludesNoneSelected.GetSelectQuery exLib = [] ∧
      (∀ transformRootField : String → Option String,
        adapters.transformSelectQuery transformRootField
          (exIncludesNoRoot.GetSelectQuery exLib) = none) := by
  refine ⟨by decide, by decide, ?_⟩
  intro transformRootField
  have h : exIncludesNoRoot.GetSelectQuery exLib = [] := by decide
  rw [h]
  rfl

/-! ## Fields tree -/

theorem splitChars_pieces (sep : Char) (l : List Char) :
    ∀ p ∈ splitChars sep l, sep ∉ p := by
  induction l with
  | nil =>
    intro p hp
    simp only [splitChars, List.mem_singleton] at hp
    rw [hp]
    exact List.not_mem_nil _
  | cons c cs ih =>
    intro p hp
    rw [splitChars] at hp
    by_cases hc : c = sep
    · rw [if_pos hc] at hp
      rcases List.mem_cons.mp hp with h | h
      · rw [h]; exact List.not_mem_nil _
      · exact ih p h
    · rw [if_neg hc] at hp
      cases hs : splitChars sep cs with
      | nil =>
        rw [hs] at hp
        simp only [List.mem_singleton] at hp
        rw [hp]
        intro hm
        simp only [List.mem_singleton] at hm
        exact hc hm.symm
      | cons h t =>
        rw [hs] at hp ih
        rcases List.mem_cons.mp hp with h1 | h1
        · rw [h1]
          intro hm
          rcases List.mem_cons.mp hm with h2 | h2
          · exact hc h2.symm
          · exact ih h (List.mem_cons_self _ _) h2
        · exact ih p (List.mem_cons_of_mem _ h1)

theorem Split_pieces (s : String) (sep : Char) :
    ∀ p ∈ strings.Split s sep, sep ∉ p.data := by
  intro p hp
  unfold strings.Split at hp
  obtain ⟨q, hq, hqp⟩ := List.mem_map.mp hp
  rw [← hqp]
  exact splitChars_pieces sep s.data q hq

theorem addFieldToFields_eq_insertPath (segments : List String) :
    (∀ p ∈ segments, '.' ∉ p.data) → segments ≠ [] →
      ∀ (fuel : Nat) (model : Fields) (field : String),
        strings.Split field '.' = segments → 2 * segments.length ≤ fuel + 1 →
          addFieldToFields fuel model field = some (insertPath model segments) := by
  induction segments with
  | nil => intro _ h; exact absurd rfl h
  | cons first rest ih =>
    intro hp _ fuel model field hsplit hfuel
    cases rest with
    | nil =>
      obtain ⟨f, rfl⟩ : ∃ f, fuel = f + 1 := ⟨fuel - 1, by simp at hfuel; omega⟩
      have hone : (strings.Split field '.').length = 1 := by rw [hsplit]; rfl
      have hfield : strings.Split field '.' = [field] :=
        Split_of_not_mem field '.' ((Split_length_eq_one_iff field '.').mp hone)
      have hf : first = field := by
        rw [hsplit] at hfield
        exact List.head_eq_of_cons_eq hfield
      rw [addFieldToFields]
      simp only [defaultFieldsDelimiter, hsplit, List.length_singleton, beq_self_eq_true,
        if_true, insertPath, hf]
    | cons second rest2 =>
      obtain ⟨f, rfl⟩ : ∃ f, fuel = f + 3 :=
        ⟨fuel - 3, by simp only [List.length_cons] at hfuel; omega⟩
      have hrest : ∀ p ∈ second :: rest2, '.' ∉ p.data :=
        fun p hm => hp p (List.mem_cons_of_mem _ hm)
      have hjoin : strings.Split (strings.Join (second :: rest2) (String.singleton '.')) '.' =
          second :: rest2 :=
        Split_Join_of_not_mem '.' (second :: rest2) (List.cons_ne_nil _ _) hrest
      have hinner : ∀ m : Fields,
          addFieldToFields (f + 1) m (strings.Join (second :: rest2) (String.singleton '.')) =
            some (insertPath m (second :: rest2)) := by
        intro m
        apply ih hrest (List.cons_ne_nil _ _) (f + 1) m _ hjoin
        simp only [List.length_cons] at hfuel ⊢
        omega
      rw [addFieldToFields]
      simp only [defaultFieldsDelimiter, hsplit, List.length_cons]
      have hne : ¬ ((rest2.length + 1 + 1 == 1) = true) := by simp
      rw [if_neg hne, addNestedFieldToFields]
      simp only [defaultFieldsDelimiter]
      cases hfind : model.NestedFields.find? (fun v => v.PropName == first) with
      | some v =>
        simp only [hinner v, Option.map_some', insertPath, hfind]
      | none =>
        simp only [hinner, Option.map_some', insertPath, hfind]

theorem StringsArrayToFields_fold (values : List String) (root : Fields) :
    values.foldlM
        (fun fields value =>
          addFieldToFields (2 * (strings.Split value defaultFieldsDelimiter).length) fields value)
        root =
      some (values.foldl
        (fun fields value => insertPath fields (strings.Split value '.')) root) := by
  induction values generalizing root with
  | nil => rfl
  | cons value rest ih =>
    rw [List.foldlM_cons,
      addFieldToFields_eq_insertPath (strings.Split value '.') (Split_pieces value '.')
        (Split_ne_nil value '.') _ root value rfl (by simp only [defaultFieldsDelimiter]; omega)]
    simp only [Option.bind_eq_bind, Option.some_bind, List.foldl_cons]
    exact ih _

theorem StringsArrayToFields_eq (values : List String) :
    StringsArrayToFields values =
      some (values.foldl
        (fun fields value => insertPath fields (strings.Split value '.'))
        { PropName := "", List := [], NestedFields := [] }) :=
  StringsArrayToFields_fold values _

/-- C22 on the code: for the tokens `author.id`, `author.name` the tree has
the child `author` with the single leaf `id`; `name` is not in the tree, which
has one leaf for two tokens.  A second token with the same first segment is
added to a copy of the child. -/
theorem StringsArrayToFields_loses_second_token :
    StringsArrayToFields ["author.id", "author.name"] =
        some
          { PropName := ""
            List := []
            NestedFields := [{ PropName := "author", List := ["id"], NestedFields := [] }] } ∧
      (StringsArrayToFields ["author.id", "author.name"]).map Fields.leafCount = some 1 ∧
      ["author.id", "author.name"].length = 2 :=
  ⟨rfl, by decide, rfl⟩

theorem Fields.uniqueNames_eq (model : Fields) :
    model.uniqueNames =
      (decide (model.NestedFields.map (fun v => v.PropName)).Nodup &&
        allUniqueNames model.NestedFields) := by
  cases model
  simp [Fields.uniqueNames]

theorem allUniqueNames_append (a b : List Fields) :
    allUniqueNames (a ++ b) = (allUniqueNames a && allUniqueNames b) := by
  induction a with
  | nil => simp [allUniqueNames]
  | cons v rest ih => simp [allUniqueNames, ih, Bool.and_assoc]

theorem insertPath_PropName (model : Fields) (segments : List String) :
    (insertPath model segments).PropName = model.PropName := by
  match segments with
  | [] => rfl
  | [_] => rfl
  | first :: second :: rest =>
    rw [insertPath]
    cases model.NestedFields.find? (fun v => v.PropName == first) <;> rfl

theorem insertPath_fresh_uniqueNames (segments : List String) :
    ∀ name : String,
      (insertPath { PropName := name, List := [], NestedFields := [] } segments).uniqueNames =
        true := by
  induction segments with
  | nil => intro name; simp [insertPath, Fields.uniqueNames, allUniqueNames]
  | cons first rest ih =>
    intro name
    cases rest with
    | nil => simp [insertPath, Fields.uniqueNames, allUniqueNames]
    | cons second rest2 =>
      have hchild := ih first
      rw [insertPath]
      simp only [List.find?_nil, List.nil_append]
      rw [Fields.uniqueNames_eq]
      simp [allUniqueNames, hchild]

theorem insertPath_uniqueNames (model : Fields) (segments : List String)
    (h : model.uniqueNames = true) : (insertPath model segments).uniqueNames = true := by
  match segments with
  | [] => exact h
  | [leaf] =>
    rw [Fields.uniqueNames_eq] at h ⊢
    exact h
  | first :: second :: rest =>
    rw [insertPath]
    cases hfind : model.NestedFields.find? (fun v => v.PropName == first) with
    | some v => exact h
    | none =>
      rw [Fields.uniqueNames_eq, Bool.and_eq_true, decide_eq_true_iff] at h
      have hnot : first ∉ model.NestedFields.map (fun v => v.PropName) := by
        intro hm
        obtain ⟨v, hv, hname⟩ := List.mem_map.mp hm
        have := List.find?_eq_none.mp hfind v hv
        simp [hname] at this
      rw [Fields.uniqueNames_eq, Bool.and_eq_true, decide_eq_true_iff]
      simp only [List.map_append, List.map_cons, List.map_nil, allUniqueNames_append,
        allUniqueNames, Bool.and_true, Bool.and_eq_true]
      refine ⟨?_, h.2, insertPath_fresh_uniqueNames (second :: rest) first⟩
      rw [List.nodup_append]
      refine ⟨h.1, List.nodup_singleton _, ?_⟩
      intro a ha hb
      simp only [List.mem_singleton] at hb
      rw [insertPath_PropName] at hb
      have hb' : a = first := hb
      exact hnot (hb' ▸ ha)

theorem insertPath_fold_invariant (values : List String) (root : Fields)
    (h : root.uniqueNames = true) :
    (values.foldl (fun fields value => insertPath fields (strings.Split value '.'))
        root).uniqueNames = true ∧
      (values.foldl (fun fields value => insertPath fields (strings.Split value '.'))
        root).PropName = root.PropName := by
  induction values generalizing root with
  | nil => exact ⟨h, rfl⟩
  | cons value rest ih =>
    rw [List.foldl_cons]
    have := ih (insertPath root (strings.Split value '.'))
      (insertPath_uniqueNames root _ h)
    rw [insertPath_PropName] at this
    exact this

/-- C24: for every list of tokens `StringsArrayToFields` returns a tree in
which no node, at any depth, has two children with the same PropName, and
whose root has the empty PropName. -/
theorem StringsArrayToFields_uniqueNames (values : List String) :
    ∃ tree : Fields, StringsArrayToFields values = some tree ∧
      tree.uniqueNames = true ∧ tree.PropName = "" := by
  refine ⟨_, StringsArrayToFields_eq values, ?_⟩
  exact insertPath_fold_invariant values _ (by decide)

/-! ## Nested representation of a Fields tree -/

theorem mapAssign_of_not_mem (entries : List (String × List FieldItem)) (key : String)
    (value : List FieldItem) (h : key ∉ entries.map (fun e => e.1)) :
    mapAssign entries key value = entries ++ [(key, value)] := by
  induction entries with
  | nil => rfl
  | cons entry rest ih =>
    simp only [List.map_cons, List.mem_cons, not_or] at h
    have hne : ¬ (entry.1 == key) = true := by
      rw [beq_iff_eq]
      exact fun e => h.1 e.symm
    rw [mapAssign, if_neg hne, ih h.2]
    rfl

theorem nestedMapOf_of_nodup (nested : List Fields) :
    ∀ nestedMap : List (String × List FieldItem),
      (nestedMap.map (fun e => e.1) ++ nested.map (fun v => v.PropName)).Nodup →
        nestedMapOf nested nestedMap =
          nestedMap ++ nested.map (fun v => (v.PropName, v.ToInterfaceArray)) := by
  induction nested with
  | nil => intro nestedMap _; simp [nestedMapOf]
  | cons v rest ih =>
    intro nestedMap hnodup
    have hv : v.PropName ∉ nestedMap.map (fun e => e.1) := by
      intro hm
      have := (List.nodup_append.mp hnodup).2.2
      exact this hm (by simp)
    rw [nestedMapOf, mapAssign_of_not_mem nestedMap _ _ hv, ih]
    · simp
    · simpa [List.append_assoc] using hnodup

theorem Fields.ToInterfaceArray_eq (model : Fields)
    (h : (model.NestedFields.map (fun v => v.PropName)).Nodup) :
    model.ToInterfaceArray =
      model.List.map FieldItem.str ++
        [FieldItem.map (model.NestedFields.map (fun v => (v.PropName, v.ToInterfaceArray)))] := by
  cases model with
  | mk name nested list =>
    rw [Fields.ToInterfaceArray, nestedMapOf_of_nodup nested [] (by simpa using h)]
    rfl

theorem interfaceArrayLoop_leaves (list : List String) (items : List FieldItem) :
    ∀ newFields : Fields,
      interfaceArrayLoop (list.map FieldItem.str ++ items) newFields =
        interfaceArrayLoop items { newFields with List := newFields.List ++ list } := by
  induction list with
  | nil => intro newFields; cases newFields; simp
  | cons leaf rest ih =>
    intro newFields
    rw [List.map_cons, List.cons_append, interfaceArrayLoop, interfaceArrayStep, ih]
    simp

theorem interfaceArrayMapLoop_eq (entries : List (String × List FieldItem)) :
    ∀ newFields : Fields,
      interfaceArrayMapLoop entries newFields =
        { newFields with
          NestedFields := newFields.NestedFields ++
            entries.map (fun e => interfaceArrayToFieldsRecursively e.1 e.2) } := by
  induction entries with
  | nil => intro newFields; cases newFields; simp [interfaceArrayMapLoop]
  | cons entry rest ih =>
    intro newFields
    obtain ⟨k, mapFields⟩ := entry
    rw [interfaceArrayMapLoop, interfaceArrayMapStep, ih]
    simp [interfaceArrayToFieldsRecursively]

mutual
theorem roundtrip_of_uniqueNames :
    ∀ tree : Fields, tree.uniqueNames = true →
      interfaceArrayToFieldsRecursively tree.PropName tree.ToInterfaceArray = tree
  | ⟨name, nested, list⟩, h => by
    rw [Fields.uniqueNames, Bool.and_eq_true, decide_eq_true_iff] at h
    have hlist := roundtrip_list_of_uniqueNames nested h.2
    rw [Fields.ToInterfaceArray_eq _ h.1]
    unfold interfaceArrayToFieldsRecursively
    rw [interfaceArrayLoop_leaves, interfaceArrayLoop, interfaceArrayStep,
      interfaceArrayMapLoop_eq, interfaceArrayLoop]
    simp only [List.nil_append, List.map_map]
    have hmap : nested.map
        ((fun e : String × List FieldItem => interfaceArrayToFieldsRecursively e.1 e.2) ∘
          fun v => (v.PropName, v.ToInterfaceArray)) = nested := hlist
    rw [hmap]
theorem roundtrip_list_of_uniqueNames :
    ∀ nested : List Fields, allUniqueNames nested = true →
      nested.map
        (fun v => interfaceArrayToFieldsRecursively v.PropName v.ToInterfaceArray) = nested
  | [], _ => rfl
  | v :: rest, h => by
    rw [allUniqueNames, Bool.and_eq_true] at h
    rw [List.map_cons, roundtrip_of_uniqueNames v h.1, roundtrip_list_of_uniqueNames rest h.2]
end

theorem itemsReordered_leaves (list : List String) (items other : List FieldItem)
    (h : itemsReordered (list.map FieldItem.str ++ items) other) :
    ∃ rest', other = list.map FieldItem.str ++ rest' ∧ itemsReordered items rest' := by
  induction list generalizing other with
  | nil => exact ⟨other, rfl, h⟩
  | cons leaf rest ih =>
    rw [List.map_cons, List.cons_append, itemsReordered] at h
    obtain ⟨item', rest', hother, hitem, hrest⟩ := h
    rw [FieldItem.reordered] at hitem
    obtain ⟨tail, htail, hitems⟩ := ih rest' hrest
    exact ⟨tail, by rw [hother, hitem, htail]; rfl, hitems⟩

mutual
theorem sameUpToOrder_of_reordered :
    ∀ tree : Fields, tree.uniqueNames = true →
      ∀ items : List FieldItem, itemsReordered tree.ToInterfaceArray items →
        tree.sameUpToOrder (interfaceArrayToFieldsRecursively tree.PropName items)
  | ⟨name, nested, list⟩, h, items, hitems => by
    rw [Fields.uniqueNames, Bool.and_eq_true, decide_eq_true_iff] at h
    rw [Fields.ToInterfaceArray_eq _ h.1] at hitems
    obtain ⟨rest', hother, hrest⟩ := itemsReordered_leaves _ _ _ hitems
    rw [itemsReordered] at hrest
    obtain ⟨item', tail, hrest', hitem, htail⟩ := hrest
    rw [itemsReordered] at htail
    rw [FieldItem.reordered] at hitem
    obtain ⟨middle, entries', hmap, hentries, hperm⟩ := hitem
    have hlist := childrenSameUpToOrder_of_reordered nested h.2 middle hentries
    subst htail hmap hrest' hother
    unfold interfaceArrayToFieldsRecursively
    rw [interfaceArrayLoop_leaves, interfaceArrayLoop, interfaceArrayStep,
      interfaceArrayMapLoop_eq, interfaceArrayLoop, Fields.sameUpToOrder]
    refine ⟨rfl, by simp, _, hlist, ?_⟩
    simpa using hperm.map _
theorem childrenSameUpToOrder_of_reordered :
    ∀ nested : List Fields, allUniqueNames nested = true →
      ∀ middle : List (String × List FieldItem),
        entriesReordered (nested.map (fun v => (v.PropName, v.ToInterfaceArray))) middle →
          childrenSameUpToOrder nested
            (middle.map (fun e => interfaceArrayToFieldsRecursively e.1 e.2))
  | [], _, middle, hmiddle => by
    rw [List.map_nil, entriesReordered] at hmiddle
    rw [hmiddle, childrenSameUpToOrder]
    rfl
  | v :: rest, h, middle, hmiddle => by
    rw [allUniqueNames, Bool.and_eq_true] at h
    rw [List.map_cons, entriesReordered] at hmiddle
    obtain ⟨mapFields', rest', hother, hentry, hrest⟩ := hmiddle
    rw [entryReordered] at hentry
    rw [hother, List.map_cons, childrenSameUpToOrder]
    exact ⟨_, _, rfl, sameUpToOrder_of_reordered v h.1 mapFields' hentry,
      childrenSameUpToOrder_of_reordered rest h.2 rest' hrest⟩
end

/-- C23: for every list of tokens, `StringsArrayToFields` returns a tree, and
converting that tree to the nested representation and back gives an
equivalent tree.  With the keys of every map visited in the order they were
assigned the result is the tree itself; with the keys of the maps, at any
depth, visited in any other order, the result has at every node the PropName,
the leaf names and the children of the tree, the children in another order. -/
theorem InterfaceArrayToFields_ToInterfaceArray (values : List String) :
    ∃ tree : Fields, StringsArrayToFields values = some tree ∧
      InterfaceArrayToFields tree.ToInterfaceArray = tree ∧
      ∀ items : List FieldItem, itemsReordered tree.ToInterfaceArray items →
        tree.sameUpToOrder (InterfaceArrayToFields items) := by
  have hinv := insertPath_fold_invariant values
    { PropName := "", List := [], NestedFields := [] } (by decide)
  refine ⟨_, StringsArrayToFields_eq values, ?_, ?_⟩
  · have h := roundtrip_of_uniqueNames _ hinv.1
    rw [hinv.2] at h
    exact h
  · intro items hitems
    have h := sameUpToOrder_of_reordered _ hinv.1 items hitems
    rw [hinv.2] at h
    exact h

theorem InterfaceArrayToFields_ToInterfaceArray_witness :
    StringsArrayToFields exTokensTwoGroups = some exTreeTwoGroups ∧
      itemsReordered exTreeTwoGroups.ToInterfaceArray exItemsGroupFirst ∧
      InterfaceArrayToFields exItemsGroupFirst =
        { PropName := ""
          List := []
          NestedFields :=
            [{ PropName := "group", List := ["name"], NestedFields := [] },
             { PropName := "author", List := ["id"], NestedFields := [] }] } ∧
      exTreeTwoGroups.sameUpToOrder (InterfaceArrayToFields exItemsGroupFirst) := by
  have hbuilt : StringsArrayToFields exTokensTwoGroups = some exTreeTwoGroups := rfl
  have hitems : itemsReordered exTreeTwoGroups.ToInterfaceArray exItemsGroupFirst := by
    refine ⟨_, _, rfl,
      ⟨[("author", [.str "id", .map []]), ("group", [.str "name", .map []])],
        _, rfl, ?_, List.Perm.swap _ _ _⟩, rfl⟩
    refine ⟨_, _, rfl, ?_, _, _, rfl, ?_, rfl⟩
    · exact ⟨_, _, rfl, rfl, _, _, rfl, ⟨[], [], rfl, rfl, List.Perm.nil⟩, rfl⟩
    · exact ⟨_, _, rfl, rfl, _, _, rfl, ⟨[], [], rfl, rfl, List.Perm.nil⟩, rfl⟩
  obtain ⟨tree, htree, _, hsame⟩ := InterfaceArrayToFields_ToInterfaceArray exTokensTwoGroups
  have heq : tree = exTreeTwoGroups := Option.some.inj (htree.symm.trans hbuilt)
  subst heq
  exact ⟨hbuilt, hitems, rfl, hsame _ hitems⟩

end list_params
